import Mathlib

/-!
A shallow embedding of the Roaring-bitmap core of this repository
(`src/data_structure/roaring_bitmap.rs`) together with proofs about it.

Modelling conventions:
* `u16`/`u32`/`u64` machine integers become `Nat`; where the source relies
  on a fixed width the bound is carried as an invariant (`< 2^16`, `< 2^64`).
  Bitwise complement of a `u64` word `w` becomes `U64MAX ^^^ w`.
* `Vec<u64>` / `Vec<u16>` become `List Nat`.  Rust index panics are
  unreachable on the 1024-word vectors (proved below); indexed reads are
  written `List.getD _ _ 0`.
* `BTreeMap<u16, Container>` becomes a key-sorted association list
  `List (Nat × Container)`; `BTreeSet<u16>` an ordered duplicate-free list;
  `HashSet` membership becomes list membership.
* `slice::binary_search` is modelled by its documented contract on the
  sorted duplicate-free arrays the container maintains: it reports whether
  the value is present, and the index of the matching element resp. the
  insertion point (on such arrays both equal the count of smaller elements).
* Operations that can panic in the source (`Option::unwrap` on an empty
  container's minimum/maximum, `BTreeMap` indexing with an absent key)
  return an `Option`, `none` marking the panic.
-/

set_option maxRecDepth 8192

def ARRAY_MAX_SIZE : Nat := 4096
def BITMAP_SIZE : Nat := 1024
def U64MAX : Nat := 2 ^ 64 - 1

/-- The set bits (positions `0..64`) of a `u64` word, ascending. -/
def wordBits (w : Nat) : List Nat :=
  (List.range 64).filter (fun j => w.testBit j)

/-- `u64::count_ones` for a word `< 2^64`. -/
def countOnes (w : Nat) : Nat := (wordBits w).length

/-- Elements of a bit-array whose first word has base index `i`:
word `w` at offset `d` with bit `j` set contributes `(i+d)*64 + j`.
This is the sequence produced by the source's `BitmapIterator`
(words left to right, bits low to high). -/
def bitmapElemsAux : List Nat → Nat → List Nat
  | [], _ => []
  | w :: ws, i => (wordBits w).map (fun j => i * 64 + j) ++ bitmapElemsAux ws (i + 1)

/-- `BitmapContainer::maximum`: the source scans words right to left and
returns `idx*64 + 63 - leading_zeros` for the first non-zero word; for a
word `0 < w < 2^64` that bit position is `Nat.log2 w`.  Equivalently (as
recursion from the left): the last non-zero word wins. -/
def maxWordsAux : List Nat → Nat → Option Nat
  | [], _ => none
  | w :: ws, i =>
    match maxWordsAux ws (i + 1) with
    | some m => some m
    | none => if w = 0 then none else some (i * 64 + Nat.log2 w)

/-- `BitmapContainer::rank`: add full popcounts of words wholly below
`value` (source condition `(i+1)*64 < value`), then count the bits of the
first remaining word at positions `0..(value - i*64)` and stop. -/
def rankWords : List Nat → Nat → Nat → Nat
  | [], _, _ => 0
  | w :: ws, i, value =>
    if (i + 1) * 64 < value then countOnes w + rankWords ws (i + 1) value
    else ((List.range (value - i * 64)).filter (fun j => w.testBit j)).length

/-- Contract of `slice::binary_search(&v)` on a sorted duplicate-free
array: whether `v` occurs, and the hit index resp. insertion point —
on such arrays both are the number of elements smaller than `v`. -/
def binarySearch (l : List Nat) (v : Nat) : Bool × Nat :=
  (l.contains v, l.countP (fun x => decide (x < v)))

structure ArrayContainer where
  array : List Nat
deriving DecidableEq

structure BitmapContainer where
  bitmap : List Nat
  cardinality : Nat
deriving DecidableEq

inductive Container where
  | Array (c : ArrayContainer)
  | Bitmap (c : BitmapContainer)
deriving DecidableEq

def ArrayContainer.new : ArrayContainer := ⟨[]⟩

def ArrayContainer.cardinality (c : ArrayContainer) : Nat := c.array.length

def ArrayContainer.should_upgrade (c : ArrayContainer) : Bool :=
  decide (ARRAY_MAX_SIZE ≤ c.cardinality)

def ArrayContainer.add (c : ArrayContainer) (v : Nat) : ArrayContainer × Bool :=
  match binarySearch c.array v with
  | (true, _) => (c, false)
  | (false, idx) => (⟨c.array.insertIdx idx v⟩, true)

def ArrayContainer.remove (c : ArrayContainer) (v : Nat) : ArrayContainer × Bool :=
  match binarySearch c.array v with
  | (true, idx) => (⟨c.array.eraseIdx idx⟩, true)
  | (false, _) => (c, false)

def ArrayContainer.contains (c : ArrayContainer) (v : Nat) : Bool :=
  (binarySearch c.array v).1

def ArrayContainer.is_empty (c : ArrayContainer) : Bool := decide (c.cardinality = 0)

def ArrayContainer.minimum (c : ArrayContainer) : Option Nat := c.array.head?

def ArrayContainer.maximum (c : ArrayContainer) : Option Nat := c.array.getLast?

def ArrayContainer.select (c : ArrayContainer) (idx : Nat) : Option Nat := c.array.get? idx

/-- `ArrayContainer::rank`: `binary_search(&value).unwrap_or_else(|i| i)` —
the hit index on a hit, the insertion point on a miss (no `+ 1`). -/
def ArrayContainer.rank (c : ArrayContainer) (v : Nat) : Nat :=
  (binarySearch c.array v).2

def BitmapContainer.new : BitmapContainer :=
  ⟨List.replicate BITMAP_SIZE 0, 0⟩

/-- `(v / 64, v % 64)` — bucket and bit index of a value. -/
def find_position_in_bitmap (v : Nat) : Nat × Nat := (v / 64, v % 64)

def BitmapContainer.is_one_at_position (c : BitmapContainer) (bucket idx : Nat) : Bool :=
  (c.bitmap.getD bucket 0).testBit idx

def BitmapContainer.add (c : BitmapContainer) (v : Nat) : BitmapContainer × Bool :=
  let p := find_position_in_bitmap v
  let notExist := !c.is_one_at_position p.1 p.2
  let bm := c.bitmap.set p.1 (c.bitmap.getD p.1 0 ||| (1 <<< p.2))
  (⟨bm, if notExist then c.cardinality + 1 else c.cardinality⟩, notExist)

/-- `BitmapContainer::remove` clears the bit of a present value and
returns `true`, but (unlike `add`) never touches the cached
`cardinality` field — modelled exactly as written. -/
def BitmapContainer.remove (c : BitmapContainer) (v : Nat) : BitmapContainer × Bool :=
  let p := find_position_in_bitmap v
  if c.is_one_at_position p.1 p.2 then
    (⟨c.bitmap.set p.1 (c.bitmap.getD p.1 0 &&& (U64MAX ^^^ (1 <<< p.2))), c.cardinality⟩, true)
  else (c, false)

def BitmapContainer.remove_values (c : BitmapContainer) (values : List Nat) :
    BitmapContainer × Nat :=
  values.foldl
    (fun p v =>
      let q := p.1.remove v
      (q.1, if q.2 then p.2 + 1 else p.2))
    (c, 0)

def BitmapContainer.from_iter (l : List Nat) : BitmapContainer :=
  l.foldl (fun c v => (c.add v).1) BitmapContainer.new

def ArrayContainer.upgrade (c : ArrayContainer) : BitmapContainer :=
  BitmapContainer.from_iter c.array

def BitmapContainer.elems (c : BitmapContainer) : List Nat :=
  bitmapElemsAux c.bitmap 0

def BitmapContainer.contains (c : BitmapContainer) (v : Nat) : Bool :=
  let p := find_position_in_bitmap v
  c.is_one_at_position p.1 p.2

def BitmapContainer.is_empty (c : BitmapContainer) : Bool := decide (c.cardinality = 0)

def BitmapContainer.minimum (c : BitmapContainer) : Option Nat := c.elems.head?

def BitmapContainer.maximum (c : BitmapContainer) : Option Nat :=
  maxWordsAux c.bitmap 0

def BitmapContainer.should_downgrade (c : BitmapContainer) : Bool :=
  decide (c.cardinality < ARRAY_MAX_SIZE)

def BitmapContainer.downgrade (c : BitmapContainer) : ArrayContainer := ⟨c.elems⟩

def BitmapContainer.to_best_container (c : BitmapContainer) : Container :=
  if c.should_downgrade then .Array c.downgrade else .Bitmap c

def BitmapContainer.rank (c : BitmapContainer) (v : Nat) : Nat :=
  rankWords c.bitmap 0 v

def Container.add (c : Container) (v : Nat) : Container × Bool :=
  match c with
  | .Array ac =>
    let p := ac.add v
    if p.1.should_upgrade then (.Bitmap p.1.upgrade, p.2) else (.Array p.1, p.2)
  | .Bitmap bc =>
    let p := bc.add v
    (.Bitmap p.1, p.2)

def Container.remove (c : Container) (v : Nat) : Container × Bool :=
  match c with
  | .Array ac => let p := ac.remove v; (.Array p.1, p.2)
  | .Bitmap bc => let p := bc.remove v; (.Bitmap p.1, p.2)

def Container.cardinality : Container → Nat
  | .Array ac => ac.cardinality
  | .Bitmap bc => bc.cardinality

def Container.elems : Container → List Nat
  | .Array ac => ac.array
  | .Bitmap bc => bc.elems

def Container.contains (c : Container) (v : Nat) : Bool :=
  match c with
  | .Array ac => ac.contains v
  | .Bitmap bc => bc.contains v

def Container.is_empty : Container → Bool
  | .Array ac => ac.is_empty
  | .Bitmap bc => bc.is_empty

def Container.minimum : Container → Option Nat
  | .Array ac => ac.minimum
  | .Bitmap bc => bc.minimum

def Container.maximum : Container → Option Nat
  | .Array ac => ac.maximum
  | .Bitmap bc => bc.maximum

/-- `has_overlap` unwraps the minima and maxima of both containers:
on an empty container this is a panic (`none`). -/
def has_overlap (a b : Container) : Option Bool :=
  match a.minimum, a.maximum, b.minimum, b.maximum with
  | some smin, some smax, some omin, some omax =>
    some (decide (max smin omin ≤ min smax omax))
  | _, _, _, _ => none

/-- Duplicate-free ordered insertion, as performed by `BTreeSet<u16>`. -/
def setInsert (v : Nat) : List Nat → List Nat
  | [] => [v]
  | x :: xs =>
    if v < x then v :: x :: xs
    else if v = x then x :: xs
    else x :: setInsert v xs

/-- `BTreeSet::from_iter` / `extend`: ascending duplicate-free contents. -/
def btreeSetOf (l : List Nat) : List Nat :=
  l.foldl (fun s v => setInsert v s) []

def BitmapContainer.union_with_array_container (c : BitmapContainer)
    (oc : ArrayContainer) : Container :=
  .Bitmap (oc.array.foldl (fun b v => (b.add v).1) ⟨c.bitmap, c.cardinality⟩)

def BitmapContainer.union (c : BitmapContainer) (other : Container) : Container :=
  match other with
  | .Array oc => c.union_with_array_container oc
  | .Bitmap ob =>
    let words := (List.range BITMAP_SIZE).map
      (fun i => c.bitmap.getD i 0 ||| ob.bitmap.getD i 0)
    .Bitmap ⟨words, (words.map countOnes).sum⟩

def ArrayContainer.to_best_container (c : ArrayContainer) : Container :=
  if c.should_upgrade then .Bitmap c.upgrade else .Array c

def ArrayContainer.union (c : ArrayContainer) (other : Container) : Container :=
  match other with
  | .Array oc =>
    let u := btreeSetOf (c.array ++ oc.array)
    if ARRAY_MAX_SIZE ≤ u.length then .Bitmap (BitmapContainer.from_iter u)
    else .Array ⟨u⟩
  | .Bitmap ob => ob.union_with_array_container c

/-- `intersect_with_array_container` inserts the hits into a fresh
`Container::Array` through `Container::add` (so the upgrade policy applies). -/
def BitmapContainer.intersect_with_array_container (c : BitmapContainer)
    (oc : ArrayContainer) : Container :=
  oc.array.foldl
    (fun acc v => if c.contains v then (acc.add v).1 else acc)
    (.Array ⟨[]⟩)

def BitmapContainer.intersect (c : BitmapContainer) (other : Container) : Container :=
  match other with
  | .Array oc => c.intersect_with_array_container oc
  | .Bitmap ob =>
    let words := List.zipWith (fun a b => a &&& b) c.bitmap ob.bitmap
    let bc : BitmapContainer := ⟨words, (words.map countOnes).sum⟩
    if bc.should_downgrade then .Array bc.downgrade else .Bitmap bc

def ArrayContainer.intersect (c : ArrayContainer) (other : Container) : Container :=
  match other with
  | .Array oc => .Array ⟨oc.array.filter (fun v => c.array.contains v)⟩
  | .Bitmap ob => ob.intersect_with_array_container c

def ArrayContainer.difference (c : ArrayContainer) (other : Container) : Container :=
  match other with
  | .Array oc => .Array ⟨c.array.filter (fun v => !oc.array.contains v)⟩
  | .Bitmap ob => .Array ⟨c.array.filter (fun v => !ob.contains v)⟩

def BitmapContainer.difference (c : BitmapContainer) (other : Container) : Container :=
  match other with
  | .Array oc =>
    (ArrayContainer.mk (c.elems.filter (fun v => !oc.contains v))).to_best_container
  | .Bitmap ob =>
    let words := (List.range BITMAP_SIZE).map
      (fun i => c.bitmap.getD i 0 &&& (U64MAX ^^^ ob.bitmap.getD i 0))
    (BitmapContainer.mk words ((words.map countOnes).sum)).to_best_container

/-- `symmetric_difference_with_array_container`, modelled exactly as
written: it keeps the bitmap's elements outside the array, plus the array
elements that ARE in the bitmap (`filter(|v| self.contains(*v))`). -/
def BitmapContainer.symmetric_difference_with_array_container
    (c : BitmapContainer) (oc : ArrayContainer) : Container :=
  let sym := List.insertionSort (· ≤ ·) (c.elems.filter (fun v => !oc.array.contains v)
      ++ oc.array.filter (fun v => c.contains v))
  (ArrayContainer.mk sym).to_best_container

def ArrayContainer.symmetric_difference (c : ArrayContainer) (other : Container) :
    Container :=
  match other with
  | .Array oc =>
    let sym := List.insertionSort (· ≤ ·) (oc.array.filter (fun v => !c.array.contains v)
        ++ c.array.filter (fun v => !oc.array.contains v))
    (ArrayContainer.mk sym).to_best_container
  | .Bitmap ob => ob.symmetric_difference_with_array_container c

def BitmapContainer.symmetric_difference (c : BitmapContainer) (other : Container) :
    Container :=
  match other with
  | .Array oc => c.symmetric_difference_with_array_container oc
  | .Bitmap ob =>
    let words := (List.range BITMAP_SIZE).map
      (fun i => c.bitmap.getD i 0 ^^^ ob.bitmap.getD i 0)
    (BitmapContainer.mk words ((words.map countOnes).sum)).to_best_container

def ArrayContainer.is_subset (c : ArrayContainer) (other : Container) : Bool :=
  match other with
  | .Array oc =>
    if Container.cardinality (.Array oc) < c.cardinality then false
    else c.array.all (fun v => oc.array.contains v)
  | .Bitmap ob => c.array.all (fun v => ob.contains v)

/-- `BitmapContainer::is_subset` against an `Array` container returns
`false` unconditionally in the source. -/
def BitmapContainer.is_subset (c : BitmapContainer) (other : Container) : Bool :=
  match other with
  | .Array _ => false
  | .Bitmap ob =>
    if Container.cardinality (.Bitmap ob) < c.cardinality then false
    else (List.range BITMAP_SIZE).all
      (fun i => c.bitmap.getD i 0 &&& ob.bitmap.getD i 0 == c.bitmap.getD i 0)

def Container.union (a b : Container) : Container :=
  match a with
  | .Array ac => ac.union b
  | .Bitmap bc => bc.union b

/-- `Container::intersect` evaluates `has_overlap` first (panic on an
empty container), dispatches on overlap, and otherwise returns a fresh
empty array container. -/
def Container.intersect (a b : Container) : Option Container :=
  match has_overlap a b with
  | none => none
  | some true =>
    some (match a with
      | .Array ac => ac.intersect b
      | .Bitmap bc => bc.intersect b)
  | some false => some (.Array ArrayContainer.new)

def Container.difference (a b : Container) : Container :=
  match a with
  | .Array ac => ac.difference b
  | .Bitmap bc => bc.difference b

def Container.symmetric_difference (a b : Container) : Container :=
  match a with
  | .Array ac => ac.symmetric_difference b
  | .Bitmap bc => bc.symmetric_difference b

def Container.is_subset (a b : Container) : Bool :=
  match a with
  | .Array ac => ac.is_subset b
  | .Bitmap bc => bc.is_subset b

def Container.rank (c : Container) (v : Nat) : Nat :=
  match c with
  | .Array ac => ac.rank v
  | .Bitmap bc => bc.rank v

structure RoaringBitmap where
  containers : List (Nat × Container)
  cardinality : Nat
deriving DecidableEq

/-- `BTreeMap::get`. -/
def idxLookup (m : List (Nat × Container)) (k : Nat) : Option Container :=
  match m with
  | [] => none
  | kc :: rest => if kc.1 = k then some kc.2 else idxLookup rest k

/-- `BTreeMap::insert` (replacing an existing entry, keys kept sorted). -/
def idxInsert (m : List (Nat × Container)) (k : Nat) (c : Container) :
    List (Nat × Container) :=
  match m with
  | [] => [(k, c)]
  | kc :: rest =>
    if k < kc.1 then (k, c) :: kc :: rest
    else if k = kc.1 then (k, c) :: rest
    else kc :: idxInsert rest k c

def RoaringBitmap.new : RoaringBitmap := ⟨[], 0⟩

/-- `(number >> 16, number & 0xffff)`. -/
def split_into_key_value (n : Nat) : Nat × Nat := (n / 65536, n % 65536)

def RoaringBitmap.add (r : RoaringBitmap) (n : Nat) : RoaringBitmap × Bool :=
  let kv := split_into_key_value n
  let p : List (Nat × Container) × Bool :=
    match idxLookup r.containers kv.1 with
    | none =>
      let q := ArrayContainer.new.add kv.2
      (idxInsert r.containers kv.1 (.Array q.1), q.2)
    | some c =>
      let q := c.add kv.2
      (idxInsert r.containers kv.1 q.1, q.2)
  (⟨p.1, if p.2 then r.cardinality + 1 else r.cardinality⟩, p.2)

/-- `RoaringBitmap::remove` — the container is updated in place and is
kept in the index even when it becomes empty. -/
def RoaringBitmap.remove (r : RoaringBitmap) (n : Nat) : RoaringBitmap × Bool :=
  let kv := split_into_key_value n
  match idxLookup r.containers kv.1 with
  | none => (r, false)
  | some c =>
    let q := c.remove kv.2
    if q.2 then (⟨idxInsert r.containers kv.1 q.1, r.cardinality - 1⟩, true)
    else (⟨idxInsert r.containers kv.1 q.1, r.cardinality⟩, false)

def RoaringBitmap.contains (r : RoaringBitmap) (n : Nat) : Bool :=
  let kv := split_into_key_value n
  match idxLookup r.containers kv.1 with
  | none => false
  | some c => c.contains kv.2

def RoaringBitmap.from_range (s e : Nat) : RoaringBitmap :=
  (List.range' s (e - s)).foldl (fun r x => (r.add x).1) RoaringBitmap.new

/-- `FromIterator<u32>`: collect, sort (stable), insert one by one.
`Vec::sort` is modelled by a stable comparison sort. -/
def RoaringBitmap.from_iter (l : List Nat) : RoaringBitmap :=
  (List.insertionSort (· ≤ ·) l).foldl (fun r x => (r.add x).1) RoaringBitmap.new

def RoaringBitmap.minimum (r : RoaringBitmap) : Option Nat :=
  match r.containers.head? with
  | none => none
  | some kc =>
    match kc.2.minimum with
    | none => none
    | some m => some (kc.1 * 65536 + m)

def RoaringBitmap.maximum (r : RoaringBitmap) : Option Nat :=
  match r.containers.getLast? with
  | none => none
  | some kc =>
    match kc.2.maximum with
    | none => none
    | some m => some (kc.1 * 65536 + m)

def RoaringBitmap.to_array (r : RoaringBitmap) : List Nat :=
  r.containers.flatMap (fun kc => kc.2.elems.map (fun v => kc.1 * 65536 + v))

def RoaringBitmap.union (a b : RoaringBitmap) : RoaringBitmap :=
  let fst := (a.containers.filter (fun kc => (idxLookup b.containers kc.1).isNone)).foldl
    (fun acc kc => ⟨idxInsert acc.containers kc.1 kc.2, acc.cardinality + kc.2.cardinality⟩)
    RoaringBitmap.new
  b.containers.foldl
    (fun acc kc =>
      match idxLookup a.containers kc.1 with
      | some ca =>
        let uc := ca.union kc.2
        ⟨idxInsert acc.containers kc.1 uc, acc.cardinality + uc.cardinality⟩
      | none => ⟨idxInsert acc.containers kc.1 kc.2, acc.cardinality + kc.2.cardinality⟩)
    fst

/-- The loop of `RoaringBitmap::intersection` over the common keys
(`none` = a panic inside `Container::intersect`). -/
def interLoop (acs bcs : List (Nat × Container)) (acc : RoaringBitmap) :
    Option RoaringBitmap :=
  match acs with
  | [] => some acc
  | (k, ca) :: rest =>
    match idxLookup bcs k with
    | none => interLoop rest bcs acc
    | some cb =>
      match ca.intersect cb with
      | none => none
      | some c =>
        interLoop rest bcs ⟨idxInsert acc.containers k c, acc.cardinality + c.cardinality⟩

def RoaringBitmap.intersection (a b : RoaringBitmap) : Option RoaringBitmap :=
  interLoop a.containers b.containers RoaringBitmap.new

def RoaringBitmap.difference (a b : RoaringBitmap) : RoaringBitmap :=
  a.containers.foldl
    (fun acc kc =>
      match idxLookup b.containers kc.1 with
      | none => ⟨idxInsert acc.containers kc.1 kc.2, acc.cardinality + kc.2.cardinality⟩
      | some cb =>
        let dc := kc.2.difference cb
        ⟨idxInsert acc.containers kc.1 dc, acc.cardinality + dc.cardinality⟩)
    RoaringBitmap.new

/-- First loop of `RoaringBitmap::symmetric_difference`: for a key of
`self` absent from `other` the source evaluates `other.containers[&key]`,
a `BTreeMap` index with a missing key — a panic (`none`).  The result's
`cardinality` field is never updated in either loop. -/
def symDiffLoop (acs bcs : List (Nat × Container)) (acc : RoaringBitmap) :
    Option RoaringBitmap :=
  match acs with
  | [] => some acc
  | (k, ca) :: rest =>
    match idxLookup bcs k with
    | none => none
    | some cb =>
      symDiffLoop rest bcs ⟨idxInsert acc.containers k (ca.symmetric_difference cb), acc.cardinality⟩

def RoaringBitmap.symmetric_difference (a b : RoaringBitmap) : Option RoaringBitmap :=
  match symDiffLoop a.containers b.containers RoaringBitmap.new with
  | none => none
  | some r1 =>
    some ((b.containers.filter (fun kc => (idxLookup a.containers kc.1).isNone)).foldl
      (fun acc kc => ⟨idxInsert acc.containers kc.1 kc.2, acc.cardinality⟩) r1)

def RoaringBitmap.is_subset (a b : RoaringBitmap) : Bool :=
  a.containers.all (fun kc =>
    match idxLookup b.containers kc.1 with
    | none => false
    | some cb => kc.2.is_subset cb)

/-- `RoaringBitmap::rank`: sum cached cardinalities of containers with a
smaller key; at the first key `≥` the target key, add that container's
rank of the low half and stop (whether or not that key IS the target). -/
def rankLoop : List (Nat × Container) → Nat → Nat → Nat
  | [], _, _ => 0
  | kc :: rest, tk, lo =>
    if kc.1 < tk then kc.2.cardinality + rankLoop rest tk lo
    else kc.2.rank lo

def RoaringBitmap.rank (r : RoaringBitmap) (v : Nat) : Nat :=
  let kv := split_into_key_value v
  rankLoop r.containers kv.1 kv.2

/-! ## Well-formedness invariants -/

def ArrayContainer.wf (c : ArrayContainer) : Prop :=
  List.Sorted (· < ·) c.array ∧ ∀ x ∈ c.array, x < 65536

def BitmapContainer.wf (c : BitmapContainer) : Prop :=
  c.bitmap.length = BITMAP_SIZE ∧ (∀ w ∈ c.bitmap, w < 2 ^ 64) ∧
    c.cardinality = c.elems.length

def Container.wf : Container → Prop
  | .Array ac => ac.wf
  | .Bitmap bc => bc.wf

def RoaringBitmap.wf (r : RoaringBitmap) : Prop :=
  List.Sorted (· < ·) (r.containers.map Prod.fst) ∧
    ∀ kc ∈ r.containers, kc.1 < 65536 ∧ kc.2.wf

def RoaringBitmap.noEmpty (r : RoaringBitmap) : Prop :=
  ∀ kc ∈ r.containers, kc.2.elems ≠ []

instance (c : ArrayContainer) : Decidable c.wf := by
  unfold ArrayContainer.wf; infer_instance

instance (c : BitmapContainer) : Decidable c.wf := by
  unfold BitmapContainer.wf; infer_instance

instance (c : Container) : Decidable c.wf := by
  cases c <;> simp only [Container.wf] <;> infer_instance

instance (r : RoaringBitmap) : Decidable r.wf := by
  unfold RoaringBitmap.wf; infer_instance

instance (r : RoaringBitmap) : Decidable r.noEmpty := by
  unfold RoaringBitmap.noEmpty; infer_instance

/-! ## Generic helpers: sorted lists -/

theorem sorted_lt_nodup {l : List Nat} (h : List.Sorted (· < ·) l) : l.Nodup :=
  h.nodup

theorem sorted_ext {l m : List Nat} (hl : List.Sorted (· < ·) l)
    (hm : List.Sorted (· < ·) m) (h : ∀ x, x ∈ l ↔ x ∈ m) : l = m := by
  have : IsAntisymm Nat (· < ·) := inferInstance
  refine List.eq_of_perm_of_sorted ?_ hl hm
  refine List.perm_of_nodup_nodup_toFinset_eq hl.nodup hm.nodup ?_
  ext x
  simp [List.mem_toFinset, h x]

theorem sorted_head_le {l : List Nat} (hl : List.Sorted (· < ·) l) {h x : Nat}
    (hh : l.head? = some h) (hx : x ∈ l) : h ≤ x := by
  cases l with
  | nil => simp at hx
  | cons a t =>
    simp only [List.head?_cons, Option.some.injEq] at hh
    subst hh
    rcases List.mem_cons.mp hx with rfl | hxt
    · exact le_refl _
    · exact le_of_lt ((List.sorted_cons.mp hl).1 x hxt)

theorem sorted_le_getLast {l : List Nat} (hl : List.Sorted (· < ·) l) {m : Nat}
    (hm : l.getLast? = some m) : ∀ x ∈ l, x ≤ m := by
  induction l with
  | nil => intro x hx; simp at hx
  | cons a t ih =>
    intro x hx
    cases t with
    | nil =>
      simp only [List.getLast?_singleton, Option.some.injEq] at hm
      simp only [List.mem_singleton] at hx
      omega
    | cons b u =>
      have hm2 : (b :: u).getLast? = some m := by
        simpa [List.getLast?_cons_cons] using hm
      have ihtail := ih (List.sorted_cons.mp hl).2 hm2
      rcases List.mem_cons.mp hx with rfl | hxt
      · have hb : x < b := (List.sorted_cons.mp hl).1 b (by simp)
        have := ihtail b (by simp)
        omega
      · exact ihtail x hxt

theorem sorted_getLast_eq_max {l : List Nat} (hl : List.Sorted (· < ·) l) {m : Nat}
    (hmem : m ∈ l) (hmax : ∀ x ∈ l, x ≤ m) : l.getLast? = some m := by
  cases e : l.getLast? with
  | none =>
    rw [List.getLast?_eq_none_iff] at e
    subst e; simp at hmem
  | some y =>
    have h1 : y ≤ m := hmax y (List.mem_of_mem_getLast? (by simp [e]))
    have h2 : m ≤ y := sorted_le_getLast hl e m hmem
    simp only [Option.some.injEq]
    omega

theorem mergeSort_le_sorted (l : List Nat) :
    List.Sorted (· ≤ ·) (List.insertionSort (· ≤ ·) l) :=
  List.sorted_insertionSort (· ≤ ·) l

theorem mem_mergeSort_le {l : List Nat} {x : Nat} :
    x ∈ List.insertionSort (· ≤ ·) l ↔ x ∈ l :=
  (List.perm_insertionSort (· ≤ ·) l).mem_iff

theorem nodup_sorted_le_sorted_lt {l : List Nat} (hs : List.Sorted (· ≤ ·) l)
    (hn : l.Nodup) : List.Sorted (· < ·) l := by
  have := hs.and hn
  exact this.imp (fun h => lt_of_le_of_ne h.1 h.2)

/-! ## Word-level lemmas -/

theorem mem_wordBits {w j : Nat} : j ∈ wordBits w ↔ j < 64 ∧ w.testBit j = true := by
  simp [wordBits, List.mem_filter, List.mem_range]

theorem wordBits_sorted (w : Nat) : List.Sorted (· < ·) (wordBits w) :=
  (List.pairwise_lt_range 64).sublist (List.filter_sublist _)

theorem wordBits_zero : wordBits 0 = [] := by
  simp [wordBits, Nat.zero_testBit]

theorem countOnes_eq (w : Nat) : countOnes w = (wordBits w).length := rfl

theorem testBit_log2 {w : Nat} (hw : w ≠ 0) : w.testBit w.log2 = true := by
  have h1 : 2 ^ w.log2 ≤ w := Nat.log2_self_le hw
  have h2 : w < 2 ^ (w.log2 + 1) := Nat.lt_log2_self
  rw [Nat.testBit_to_div_mod]
  have hdiv : w / 2 ^ w.log2 = 1 := by
    have hlo : 1 ≤ w / 2 ^ w.log2 := (Nat.one_le_div_iff (Nat.pos_pow_of_pos _ (by norm_num))).mpr h1
    have hhi : w / 2 ^ w.log2 < 2 := by
      rw [Nat.div_lt_iff_lt_mul (Nat.pos_pow_of_pos _ (by norm_num))]
      calc w < 2 ^ (w.log2 + 1) := h2
        _ = 2 * 2 ^ w.log2 := by ring
    omega
  simp [hdiv]

theorem log2_lt_64 {w : Nat} (hw : w ≠ 0) (hb : w < 2 ^ 64) : w.log2 < 64 := by
  by_contra h
  push_neg at h
  have : (2 : Nat) ^ 64 ≤ 2 ^ w.log2 := Nat.pow_le_pow_right (by norm_num) h
  have := Nat.log2_self_le hw
  omega

theorem le_log2_of_testBit {w j : Nat} (h : w.testBit j = true) : j ≤ w.log2 := by
  have h1 : 2 ^ j ≤ w := Nat.testBit_implies_ge h
  by_contra hc
  push_neg at hc
  have h2 : w < 2 ^ j := by
    calc w < 2 ^ (w.log2 + 1) := Nat.lt_log2_self
      _ ≤ 2 ^ j := Nat.pow_le_pow_right (by norm_num) hc
  omega

theorem wordBits_getLast {w : Nat} (hw : w ≠ 0) (hb : w < 2 ^ 64) :
    (wordBits w).getLast? = some w.log2 := by
  refine sorted_getLast_eq_max (wordBits_sorted w) ?_ ?_
  · exact mem_wordBits.mpr ⟨log2_lt_64 hw hb, testBit_log2 hw⟩
  · intro x hx
    exact le_log2_of_testBit (mem_wordBits.mp hx).2

/-! ## Bit-array element list lemmas -/

theorem mem_bitmapElemsAux {ws : List Nat} {i x : Nat} :
    x ∈ bitmapElemsAux ws i ↔
      ∃ d j, d < ws.length ∧ j < 64 ∧ (ws.getD d 0).testBit j = true ∧
        x = (i + d) * 64 + j := by
  induction ws generalizing i with
  | nil => simp [bitmapElemsAux]
  | cons w t ih =>
    simp only [bitmapElemsAux, List.mem_append, List.mem_map, ih]
    constructor
    · rintro (⟨j, hj, rfl⟩ | ⟨d, j, hd, hj, hbit, rfl⟩)
      · exact ⟨0, j, by simp, (mem_wordBits.mp hj).1, by simpa using (mem_wordBits.mp hj).2, by ring_nf⟩
      · exact ⟨d + 1, j, by simpa using hd, hj, by simpa using hbit, by ring_nf⟩
    · rintro ⟨d, j, hd, hj, hbit, rfl⟩
      cases d with
      | zero =>
        left
        exact ⟨j, mem_wordBits.mpr ⟨hj, by simpa using hbit⟩, by ring_nf⟩
      | succ d2 =>
        right
        exact ⟨d2, j, by simpa using hd, hj, by simpa using hbit, by ring_nf⟩

theorem bitmapElemsAux_lb {ws : List Nat} {i x : Nat}
    (hx : x ∈ bitmapElemsAux ws i) : i * 64 ≤ x := by
  obtain ⟨d, j, _, _, _, rfl⟩ := mem_bitmapElemsAux.mp hx
  have : i * 64 ≤ (i + d) * 64 := by
    apply Nat.mul_le_mul_right
    omega
  omega

theorem bitmapElemsAux_ub {ws : List Nat} {i x : Nat}
    (hx : x ∈ bitmapElemsAux ws i) : x < (i + ws.length) * 64 := by
  obtain ⟨d, j, hd, hj, _, rfl⟩ := mem_bitmapElemsAux.mp hx
  have h1 : (i + d) * 64 + j < (i + d) * 64 + 64 := by omega
  have h2 : (i + d) * 64 + 64 = (i + d + 1) * 64 := by ring
  have h3 : (i + d + 1) * 64 ≤ (i + ws.length) * 64 := by
    apply Nat.mul_le_mul_right
    omega
  omega

theorem bitmapElemsAux_sorted (ws : List Nat) (i : Nat) :
    List.Sorted (· < ·) (bitmapElemsAux ws i) := by
  induction ws generalizing i with
  | nil => simp [bitmapElemsAux]
  | cons w t ih =>
    simp only [bitmapElemsAux]
    rw [List.Sorted, List.pairwise_append]
    refine ⟨?_, ih (i + 1), ?_⟩
    · refine List.Pairwise.map _ ?_ (wordBits_sorted w)
      intro a b hab
      omega
    · intro a ha b hb
      obtain ⟨j, hj, rfl⟩ := List.mem_map.mp ha
      have hj64 := (mem_wordBits.mp hj).1
      have := bitmapElemsAux_lb hb
      have : (i + 1) * 64 ≤ b := this
      omega

theorem bitmapElemsAux_length (ws : List Nat) (i : Nat) :
    (bitmapElemsAux ws i).length = (ws.map countOnes).sum := by
  induction ws generalizing i with
  | nil => simp [bitmapElemsAux]
  | cons w t ih =>
    simp [bitmapElemsAux, ih (i + 1), countOnes_eq]

theorem bitmapElemsAux_replicate_zero (n i : Nat) :
    bitmapElemsAux (List.replicate n 0) i = [] := by
  induction n generalizing i with
  | zero => simp [bitmapElemsAux]
  | succ k ih => simp [List.replicate, bitmapElemsAux, wordBits_zero, ih]

/-- Top-level membership: with 1024 words, `x` is stored iff `x < 65536`
and the bit `x % 64` of word `x / 64` is set. -/
theorem mem_bitmapElems {ws : List Nat} (hlen : ws.length = BITMAP_SIZE) {x : Nat} :
    x ∈ bitmapElemsAux ws 0 ↔ x < 65536 ∧ (ws.getD (x / 64) 0).testBit (x % 64) = true := by
  rw [mem_bitmapElemsAux]
  constructor
  · rintro ⟨d, j, hd, hj, hbit, rfl⟩
    rw [hlen] at hd
    have hdj : ((0 + d) * 64 + j) / 64 = d := by omega
    have hmj : ((0 + d) * 64 + j) % 64 = j := by omega
    rw [hdj, hmj]
    refine ⟨?_, hbit⟩
    simp only [BITMAP_SIZE] at hd
    omega
  · rintro ⟨hx, hbit⟩
    refine ⟨x / 64, x % 64, ?_, ?_, hbit, by omega⟩
    · rw [hlen]; simp only [BITMAP_SIZE]; omega
    · omega

/-! ## getD lemmas for set / range-map / zipWith word vectors -/

theorem getD_set_self {ws : List Nat} {b : Nat} (hb : b < ws.length) (x d : Nat) :
    (ws.set b x).getD b d = x := by
  rw [List.getD_eq_getElem?_getD, List.getElem?_set_self (by simpa using hb)]
  rfl

theorem getD_set_ne {ws : List Nat} {b j : Nat} (h : b ≠ j) (x d : Nat) :
    (ws.set b x).getD j d = ws.getD j d := by
  rw [List.getD_eq_getElem?_getD, List.getElem?_set_ne h, ← List.getD_eq_getElem?_getD]

theorem getD_rangeMap {n i : Nat} (f : Nat → Nat) (h : i < n) :
    (((List.range n).map f).getD i 0) = f i := by
  rw [List.getD_eq_getElem?_getD]
  rw [List.getElem?_map]
  rw [List.getElem?_range h]
  rfl

theorem getD_zipWith {a b : List Nat} {i : Nat} (f : Nat → Nat → Nat)
    (ha : i < a.length) (hb : i < b.length) :
    ((List.zipWith f a b).getD i 0) = f (a.getD i 0) (b.getD i 0) := by
  rw [List.getD_eq_getElem?_getD, List.getElem?_zipWith]
  rw [List.getElem?_eq_getElem ha, List.getElem?_eq_getElem hb]
  simp [List.getD_eq_getElem?_getD, List.getElem?_eq_getElem ha, List.getElem?_eq_getElem hb]

theorem getD_mem {ws : List Nat} {i : Nat} (h : i < ws.length) (d : Nat) :
    ws.getD i d ∈ ws := by
  rw [List.getD_eq_getElem?_getD, List.getElem?_eq_getElem h]
  exact List.getElem_mem _

/-! ## BitmapContainer operation lemmas -/

theorem BitmapContainer.add_fst_bitmap (c : BitmapContainer) (v : Nat) :
    (c.add v).1.bitmap =
      c.bitmap.set (v / 64) (c.bitmap.getD (v / 64) 0 ||| 2 ^ (v % 64)) := by
  simp only [BitmapContainer.add, find_position_in_bitmap, is_one_at_position,
    Nat.shiftLeft_eq, one_mul]

theorem BitmapContainer.add_fst_cardinality (c : BitmapContainer) (v : Nat) :
    (c.add v).1.cardinality =
      if (c.bitmap.getD (v / 64) 0).testBit (v % 64) = true then c.cardinality
      else c.cardinality + 1 := by
  simp only [BitmapContainer.add, find_position_in_bitmap, is_one_at_position]
  by_cases h : (c.bitmap.getD (v / 64) 0).testBit (v % 64) = true
  · simp only [h]; simp
  · simp only [Bool.not_eq_true] at h
    simp only [h]; simp

theorem BitmapContainer.add_snd (c : BitmapContainer) (v : Nat) :
    (c.add v).2 = !(c.bitmap.getD (v / 64) 0).testBit (v % 64) := rfl

theorem BitmapContainer.bmc_contains_iff {c : BitmapContainer}
    (hlen : c.bitmap.length = BITMAP_SIZE) {v : Nat} (hv : v < 65536) :
    c.contains v = true ↔ v ∈ c.elems := by
  rw [BitmapContainer.elems, mem_bitmapElems hlen]
  simp only [BitmapContainer.contains, is_one_at_position, find_position_in_bitmap]
  constructor
  · exact fun h => ⟨hv, h⟩
  · exact fun h => h.2

theorem BitmapContainer.bmc_elems_sorted (c : BitmapContainer) :
    List.Sorted (· < ·) c.elems := bitmapElemsAux_sorted _ _

theorem BitmapContainer.bmc_elems_bound {c : BitmapContainer}
    (hlen : c.bitmap.length = BITMAP_SIZE) : ∀ x ∈ c.elems, x < 65536 := by
  intro x hx
  have := @bitmapElemsAux_ub c.bitmap 0 x hx
  rw [hlen] at this
  simpa [BITMAP_SIZE] using this

theorem sorted_length_eq_card {l : List Nat} (h : List.Sorted (· < ·) l) :
    l.length = l.toFinset.card := (List.toFinset_card_of_nodup h.nodup).symm

theorem div64_mod64_inj {x v : Nat} (h1 : x / 64 = v / 64) (h2 : x % 64 = v % 64) :
    x = v := by omega

/-- Setting bit `v % 64` of word `v / 64` inserts `v` into the element list. -/
theorem setBit_mem {ws : List Nat} (hlen : ws.length = BITMAP_SIZE) {v : Nat}
    (hv : v < 65536) (x : Nat) :
    x ∈ bitmapElemsAux (ws.set (v / 64) (ws.getD (v / 64) 0 ||| 2 ^ (v % 64))) 0 ↔
      x = v ∨ x ∈ bitmapElemsAux ws 0 := by
  have hb : v / 64 < ws.length := by rw [hlen]; simp only [BITMAP_SIZE]; omega
  have hlen2 : (ws.set (v / 64) (ws.getD (v / 64) 0 ||| 2 ^ (v % 64))).length = BITMAP_SIZE := by
    simpa using hlen
  rw [mem_bitmapElems hlen2, mem_bitmapElems hlen]
  by_cases hx : x < 65536
  · simp only [hx, true_and]
    by_cases heq : x / 64 = v / 64
    · rw [heq, getD_set_self hb, Nat.testBit_lor]
      constructor
      · intro h
        rcases Bool.or_eq_true_iff.mp h with h1 | h2
        · right; exact h1
        · left
          by_cases hj : v % 64 = x % 64
          · exact div64_mod64_inj heq hj.symm
          · rw [Nat.testBit_two_pow_of_ne hj] at h2
            exact absurd h2 (by simp)
      · rintro (rfl | h)
        · rw [Nat.testBit_two_pow_self]
          exact Bool.or_eq_true_iff.mpr (Or.inr rfl)
        · exact Bool.or_eq_true_iff.mpr (Or.inl h)
    · rw [getD_set_ne (fun hh => heq hh.symm)]
      constructor
      · intro h; right; exact h
      · rintro (rfl | h)
        · omega
        · exact h
  · have hne : x ≠ v := fun h => hx (h ▸ hv)
    simp [hx, hne]

theorem BitmapContainer.bmc_add_spec {c : BitmapContainer} (hc : c.wf) {v : Nat}
    (hv : v < 65536) :
    (c.add v).1.wf ∧
    (∀ x, x ∈ (c.add v).1.elems ↔ x = v ∨ x ∈ c.elems) ∧
    ((c.add v).2 = true ↔ v ∉ c.elems) := by
  obtain ⟨hlen, hbound, hcard⟩ := hc
  have hb : v / 64 < c.bitmap.length := by rw [hlen]; simp only [BITMAP_SIZE]; omega
  have hlen2 : ((c.add v).1).bitmap.length = BITMAP_SIZE := by
    rw [BitmapContainer.add_fst_bitmap]
    simpa using hlen
  have hvmem : (c.bitmap.getD (v / 64) 0).testBit (v % 64) = true ↔ v ∈ c.elems := by
    rw [BitmapContainer.elems, mem_bitmapElems hlen]
    exact ⟨fun h => ⟨hv, h⟩, fun h => h.2⟩
  have hmem : ∀ x, x ∈ (c.add v).1.elems ↔ x = v ∨ x ∈ c.elems := by
    intro x
    rw [BitmapContainer.elems, BitmapContainer.add_fst_bitmap]
    exact setBit_mem hlen hv x
  refine ⟨⟨hlen2, ?_, ?_⟩, hmem, ?_⟩
  · intro w hw
    rw [BitmapContainer.add_fst_bitmap] at hw
    rcases List.mem_or_eq_of_mem_set hw with h1 | h2
    · exact hbound w h1
    · subst h2
      apply Nat.or_lt_two_pow
      · exact hbound _ (getD_mem hb 0)
      · calc (2:Nat) ^ (v % 64) ≤ 2 ^ 63 := Nat.pow_le_pow_right (by norm_num) (by omega)
          _ < 2 ^ 64 := by norm_num
  · rw [BitmapContainer.add_fst_cardinality, hcard]
    have hs1 : List.Sorted (· < ·) ((c.add v).1.elems) := BitmapContainer.bmc_elems_sorted _
    have hs0 : List.Sorted (· < ·) c.elems := BitmapContainer.bmc_elems_sorted c
    rw [sorted_length_eq_card hs0, sorted_length_eq_card hs1]
    have hts : ((c.add v).1.elems).toFinset = insert v c.elems.toFinset := by
      ext y
      simp only [List.mem_toFinset, Finset.mem_insert, hmem y]
    rw [hts]
    by_cases hvm : v ∈ c.elems
    · rw [if_pos (hvmem.mpr hvm), Finset.insert_eq_self.mpr (List.mem_toFinset.mpr hvm)]
    · rw [if_neg (fun h => hvm (hvmem.mp h)),
        Finset.card_insert_of_not_mem (fun h => hvm (List.mem_toFinset.mp h))]
  · rw [BitmapContainer.add_snd]
    rw [← hvmem]
    cases h : (c.bitmap.getD (v / 64) 0).testBit (v % 64) <;> simp [h]

theorem BitmapContainer.bmc_foldAdd_spec (l : List Nat) (hl : ∀ v ∈ l, v < 65536) :
    ∀ (c : BitmapContainer), c.wf →
      (l.foldl (fun b v => (b.add v).1) c).wf ∧
      (∀ x, x ∈ (l.foldl (fun b v => (b.add v).1) c).elems ↔ x ∈ l ∨ x ∈ c.elems) := by
  induction l with
  | nil => intro c hc; simpa using hc
  | cons a t ih =>
    intro c hc
    have ha : a < 65536 := hl a (by simp)
    have hstep := BitmapContainer.bmc_add_spec hc ha
    have ht : ∀ v ∈ t, v < 65536 := fun v hv => hl v (by simp [hv])
    obtain ⟨h1, h2⟩ := ih ht (c.add a).1 hstep.1
    refine ⟨by simpa using h1, ?_⟩
    intro x
    simp only [List.foldl_cons]
    rw [h2 x, hstep.2.1 x]
    simp only [List.mem_cons]
    tauto

theorem BitmapContainer.bmc_new_wf : BitmapContainer.new.wf := by
  refine ⟨by simp [BitmapContainer.new], ?_, ?_⟩
  · intro w hw
    rw [BitmapContainer.new] at hw
    simp only [List.mem_replicate] at hw
    rw [hw.2]
    exact Nat.pos_pow_of_pos _ (by norm_num)
  · simp [BitmapContainer.new, BitmapContainer.elems, bitmapElemsAux_replicate_zero]

theorem BitmapContainer.bmc_from_iter_spec (l : List Nat) (hl : ∀ v ∈ l, v < 65536) :
    (BitmapContainer.from_iter l).wf ∧
    (∀ x, x ∈ (BitmapContainer.from_iter l).elems ↔ x ∈ l) := by
  obtain ⟨h1, h2⟩ := BitmapContainer.bmc_foldAdd_spec l hl BitmapContainer.new
    BitmapContainer.bmc_new_wf
  refine ⟨h1, fun x => ?_⟩
  rw [BitmapContainer.from_iter] at *
  rw [h2 x]
  simp [BitmapContainer.new, BitmapContainer.elems, bitmapElemsAux_replicate_zero]

/-! ## ArrayContainer operation lemmas -/

/-- Ordered insertion; equal to inserting at the binary-search insertion
point on a sorted array. -/
def arrInsert (v : Nat) : List Nat → List Nat
  | [] => [v]
  | x :: xs => if v ≤ x then v :: x :: xs else x :: arrInsert v xs

theorem mem_arrInsert {v y : Nat} {l : List Nat} :
    y ∈ arrInsert v l ↔ y = v ∨ y ∈ l := by
  induction l with
  | nil => simp [arrInsert]
  | cons x xs ih =>
    by_cases h : v ≤ x
    · simp [arrInsert, h]
    · simp only [arrInsert, if_neg h, List.mem_cons, ih]
      tauto

theorem length_arrInsert (v : Nat) (l : List Nat) :
    (arrInsert v l).length = l.length + 1 := by
  induction l with
  | nil => rfl
  | cons x xs ih =>
    by_cases h : v ≤ x
    · simp [arrInsert, h]
    · simp [arrInsert, h, ih]

theorem arrInsert_sorted {v : Nat} {l : List Nat} (hs : List.Sorted (· < ·) l)
    (hv : v ∉ l) : List.Sorted (· < ·) (arrInsert v l) := by
  induction l with
  | nil => simp [arrInsert]
  | cons x xs ih =>
    obtain ⟨hx, hxs⟩ := List.sorted_cons.mp hs
    by_cases h : v ≤ x
    · have hlt : v < x := lt_of_le_of_ne h (fun hh => hv (by simp [hh]))
      rw [arrInsert, if_pos h, List.sorted_cons]
      refine ⟨?_, hs⟩
      intro b hb
      rcases List.mem_cons.mp hb with rfl | hbx
      · exact hlt
      · exact lt_trans hlt (hx b hbx)
    · rw [arrInsert, if_neg h, List.sorted_cons]
      refine ⟨?_, ih hxs (fun hh => hv (by simp [hh]))⟩
      intro b hb
      rcases mem_arrInsert.mp hb with rfl | hbx
      · omega
      · exact hx b hbx

theorem insertIdx_countP_eq {v : Nat} {l : List Nat} (hs : List.Sorted (· < ·) l) :
    l.insertIdx (l.countP (fun x => decide (x < v))) v = arrInsert v l := by
  induction l with
  | nil => rfl
  | cons x xs ih =>
    obtain ⟨hx, hxs⟩ := List.sorted_cons.mp hs
    by_cases h : x < v
    · have hcount : (x :: xs).countP (fun x => decide (x < v)) =
          xs.countP (fun x => decide (x < v)) + 1 := by
        rw [List.countP_cons]
        simp [h]
      rw [hcount, List.insertIdx_succ_cons, arrInsert, if_neg (by omega), ih hxs]
    · have hzero : (x :: xs).countP (fun x => decide (x < v)) = 0 := by
        rw [List.countP_eq_zero]
        intro a ha
        rcases List.mem_cons.mp ha with rfl | hax
        · simpa using h
        · have := hx a hax
          simp only [decide_eq_true_eq]
          omega
      rw [hzero, List.insertIdx_zero, arrInsert, if_pos (by omega)]

theorem eraseIdx_countP_eq {v : Nat} {l : List Nat} (hs : List.Sorted (· < ·) l)
    (hv : v ∈ l) : l.eraseIdx (l.countP (fun x => decide (x < v))) = l.erase v := by
  induction l with
  | nil => simp at hv
  | cons x xs ih =>
    obtain ⟨hx, hxs⟩ := List.sorted_cons.mp hs
    by_cases h : x = v
    · subst h
      have hzero : (x :: xs).countP (fun y => decide (y < x)) = 0 := by
        rw [List.countP_eq_zero]
        intro a ha
        rcases List.mem_cons.mp ha with rfl | hax
        · simp
        · have := hx a hax
          simp only [decide_eq_true_eq]
          omega
      rw [hzero, List.eraseIdx_zero, List.erase_cons_head]
      rfl
    · have hvxs : v ∈ xs := by
        rcases List.mem_cons.mp hv with rfl | hh
        · exact absurd rfl h
        · exact hh
      have hxv : x < v := hx v hvxs
      have hcount : (x :: xs).countP (fun y => decide (y < v)) =
          xs.countP (fun y => decide (y < v)) + 1 := by
        rw [List.countP_cons]
        simp [hxv]
      rw [hcount, List.eraseIdx_cons_succ, List.erase_cons_tail, ih hxs hvxs]
      simp [h]

theorem contains_eq_mem (l : List Nat) (v : Nat) : l.contains v = true ↔ v ∈ l := by
  simp

theorem ArrayContainer.add_eq {c : ArrayContainer} (v : Nat)
    (hs : List.Sorted (· < ·) c.array) :
    c.add v = if v ∈ c.array then (c, false) else (⟨arrInsert v c.array⟩, true) := by
  by_cases h : v ∈ c.array
  · have hb : c.array.contains v = true := (contains_eq_mem _ _).mpr h
    simp only [ArrayContainer.add, binarySearch, hb, if_pos h]
  · have hb : c.array.contains v = false := by
      cases hh : c.array.contains v
      · rfl
      · exact absurd ((contains_eq_mem _ _).mp hh) h
    simp only [ArrayContainer.add, binarySearch, hb, if_neg h,
      insertIdx_countP_eq hs]

theorem ArrayContainer.remove_eq {c : ArrayContainer} (v : Nat)
    (hs : List.Sorted (· < ·) c.array) :
    c.remove v = if v ∈ c.array then (⟨c.array.erase v⟩, true) else (c, false) := by
  by_cases h : v ∈ c.array
  · have hb : c.array.contains v = true := (contains_eq_mem _ _).mpr h
    simp only [ArrayContainer.remove, binarySearch, hb, if_pos h,
      eraseIdx_countP_eq hs h]
  · have hb : c.array.contains v = false := by
      cases hh : c.array.contains v
      · rfl
      · exact absurd ((contains_eq_mem _ _).mp hh) h
    simp only [ArrayContainer.remove, binarySearch, hb, if_neg h]

theorem ArrayContainer.ac_contains_iff (c : ArrayContainer) (v : Nat) :
    c.contains v = true ↔ v ∈ c.array := by
  simp [ArrayContainer.contains, binarySearch]

/-! ## BTreeSet model lemmas -/

theorem mem_setInsert {v y : Nat} {l : List Nat} :
    y ∈ setInsert v l ↔ y = v ∨ y ∈ l := by
  induction l with
  | nil => simp [setInsert]
  | cons x xs ih =>
    by_cases h1 : v < x
    · simp [setInsert, h1]
    · by_cases h2 : v = x
      · subst h2
        rw [setInsert, if_neg h1, if_pos rfl]
        simp only [List.mem_cons]
        tauto
      · simp only [setInsert, if_neg h1, if_neg h2, List.mem_cons, ih]
        tauto

theorem setInsert_sorted {v : Nat} {l : List Nat} (hs : List.Sorted (· < ·) l) :
    List.Sorted (· < ·) (setInsert v l) := by
  induction l with
  | nil => simp [setInsert]
  | cons x xs ih =>
    obtain ⟨hx, hxs⟩ := List.sorted_cons.mp hs
    by_cases h1 : v < x
    · rw [setInsert, if_pos h1, List.sorted_cons]
      refine ⟨?_, hs⟩
      intro b hb
      rcases List.mem_cons.mp hb with rfl | hbx
      · exact h1
      · exact lt_trans h1 (hx b hbx)
    · by_cases h2 : v = x
      · rw [setInsert, if_neg h1, if_pos h2]
        exact hs
      · rw [setInsert, if_neg h1, if_neg h2, List.sorted_cons]
        refine ⟨?_, ih hxs⟩
        intro b hb
        rcases mem_setInsert.mp hb with rfl | hbx
        · omega
        · exact hx b hbx

theorem btreeSetOf_spec (l : List Nat) :
    List.Sorted (· < ·) (btreeSetOf l) ∧ (∀ x, x ∈ btreeSetOf l ↔ x ∈ l) := by
  suffices h : ∀ (acc : List Nat), List.Sorted (· < ·) acc →
      List.Sorted (· < ·) (l.foldl (fun s v => setInsert v s) acc) ∧
      (∀ x, x ∈ l.foldl (fun s v => setInsert v s) acc ↔ x ∈ l ∨ x ∈ acc) by
    obtain ⟨h1, h2⟩ := h [] (by simp)
    exact ⟨h1, fun x => by simpa using h2 x⟩
  induction l with
  | nil => intro acc hacc; simpa using hacc
  | cons a t ih =>
    intro acc hacc
    obtain ⟨h1, h2⟩ := ih (setInsert a acc) (setInsert_sorted hacc)
    refine ⟨h1, fun x => ?_⟩
    simp only [List.foldl_cons]
    rw [h2 x, mem_setInsert]
    simp only [List.mem_cons]
    tauto

/-! ## Word-wise result membership helpers -/

theorem mem_rangeMap_bitmap {g : Nat → Nat} {x : Nat} :
    x ∈ bitmapElemsAux ((List.range BITMAP_SIZE).map g) 0 ↔
      x < 65536 ∧ (g (x / 64)).testBit (x % 64) = true := by
  rw [mem_bitmapElems (by simp)]
  constructor
  · rintro ⟨hx, hbit⟩
    rw [getD_rangeMap g (by simp only [BITMAP_SIZE]; omega)] at hbit
    exact ⟨hx, hbit⟩
  · rintro ⟨hx, hbit⟩
    rw [getD_rangeMap g (by simp only [BITMAP_SIZE]; omega)]
    exact ⟨hx, hbit⟩

theorem mem_zipWith_bitmap {a b : List Nat} (f : Nat → Nat → Nat)
    (hla : a.length = BITMAP_SIZE) (hlb : b.length = BITMAP_SIZE) {x : Nat} :
    x ∈ bitmapElemsAux (List.zipWith f a b) 0 ↔
      x < 65536 ∧ (f (a.getD (x / 64) 0) (b.getD (x / 64) 0)).testBit (x % 64) = true := by
  have hlen : (List.zipWith f a b).length = BITMAP_SIZE := by
    rw [List.length_zipWith, hla, hlb]
    simp
  rw [mem_bitmapElems hlen]
  constructor
  · rintro ⟨hx, hbit⟩
    rw [getD_zipWith f (by rw [hla]; simp only [BITMAP_SIZE]; omega)
      (by rw [hlb]; simp only [BITMAP_SIZE]; omega)] at hbit
    exact ⟨hx, hbit⟩
  · rintro ⟨hx, hbit⟩
    rw [getD_zipWith f (by rw [hla]; simp only [BITMAP_SIZE]; omega)
      (by rw [hlb]; simp only [BITMAP_SIZE]; omega)]
    exact ⟨hx, hbit⟩

/-! ## Container conversion and dispatch lemmas -/

theorem ArrayContainer.wf_of (hs : List.Sorted (· < ·) (l : List Nat))
    (hb : ∀ x ∈ l, x < 65536) : (ArrayContainer.mk l).wf := ⟨hs, hb⟩

theorem BitmapContainer.bmc_to_best_spec {c : BitmapContainer} (hc : c.wf) :
    c.to_best_container.wf ∧ (∀ x, x ∈ c.to_best_container.elems ↔ x ∈ c.elems) := by
  rw [BitmapContainer.to_best_container]
  by_cases h : c.should_downgrade
  · rw [if_pos h]
    refine ⟨⟨BitmapContainer.bmc_elems_sorted c, BitmapContainer.bmc_elems_bound hc.1⟩, ?_⟩
    intro x
    simp [Container.elems, BitmapContainer.downgrade]
  · rw [if_neg h]
    exact ⟨hc, fun x => Iff.rfl⟩

theorem ArrayContainer.ac_to_best_spec {c : ArrayContainer} (hc : c.wf) :
    c.to_best_container.wf ∧ (∀ x, x ∈ c.to_best_container.elems ↔ x ∈ c.array) := by
  rw [ArrayContainer.to_best_container]
  by_cases h : c.should_upgrade
  · rw [if_pos h]
    obtain ⟨h1, h2⟩ := BitmapContainer.bmc_from_iter_spec c.array hc.2
    exact ⟨h1, fun x => h2 x⟩
  · rw [if_neg h]
    exact ⟨hc, fun x => Iff.rfl⟩

theorem Container.elems_Array (ac : ArrayContainer) :
    (Container.Array ac).elems = ac.array := rfl

theorem Container.elems_Bitmap (bc : BitmapContainer) :
    (Container.Bitmap bc).elems = bc.elems := rfl

theorem Container.elems_sorted {c : Container} (hc : c.wf) :
    List.Sorted (· < ·) c.elems := by
  cases c with
  | Array ac => exact hc.1
  | Bitmap bc => exact BitmapContainer.bmc_elems_sorted bc

theorem Container.elems_bound {c : Container} (hc : c.wf) :
    ∀ x ∈ c.elems, x < 65536 := by
  cases c with
  | Array ac => exact hc.2
  | Bitmap bc => exact BitmapContainer.bmc_elems_bound hc.1

theorem Container.card_elems {c : Container} (hc : c.wf) :
    c.cardinality = c.elems.length := by
  cases c with
  | Array ac => rfl
  | Bitmap bc => exact hc.2.2

theorem Container.contains_iff {c : Container} (hc : c.wf) {v : Nat}
    (hv : v < 65536) : c.contains v = true ↔ v ∈ c.elems := by
  cases c with
  | Array ac => exact ArrayContainer.ac_contains_iff ac v
  | Bitmap bc => exact BitmapContainer.bmc_contains_iff hc.1 hv

theorem Container.c_add_spec {c : Container} (hc : c.wf) {v : Nat} (hv : v < 65536) :
    (c.add v).1.wf ∧
    (∀ x, x ∈ (c.add v).1.elems ↔ x = v ∨ x ∈ c.elems) ∧
    ((c.add v).2 = true ↔ v ∉ c.elems) := by
  cases c with
  | Bitmap bc =>
    obtain ⟨h1, h2, h3⟩ := BitmapContainer.bmc_add_spec hc hv
    exact ⟨h1, h2, h3⟩
  | Array ac =>
    have hs : List.Sorted (· < ·) ac.array := hc.1
    rw [Container.add]
    by_cases hmem : v ∈ ac.array
    · rw [ArrayContainer.add_eq v hs, if_pos hmem]
      by_cases hup : ac.should_upgrade
      · simp only [hup, if_true]
        obtain ⟨h1, h2⟩ := BitmapContainer.bmc_from_iter_spec ac.array hc.2
        refine ⟨h1, ?_, by simp [Container.elems_Array, hmem]⟩
        intro x
        exact ⟨fun h => Or.inr ((h2 x).mp h),
          fun h => (h2 x).mpr (h.elim (fun he => he ▸ hmem) id)⟩
      · simp only [hup, Bool.false_eq_true, if_false]
        refine ⟨hc, ?_, by simp [Container.elems_Array, hmem]⟩
        intro x
        exact ⟨fun h => Or.inr h, fun h => h.elim (fun he => he ▸ hmem) id⟩
    · rw [ArrayContainer.add_eq v hs, if_neg hmem]
      have hs2 : List.Sorted (· < ·) (arrInsert v ac.array) := arrInsert_sorted hs hmem
      have hb2 : ∀ x ∈ arrInsert v ac.array, x < 65536 := by
        intro x hx
        rcases mem_arrInsert.mp hx with rfl | h
        · exact hv
        · exact hc.2 x h
      by_cases hup : ArrayContainer.should_upgrade ⟨arrInsert v ac.array⟩
      · simp only [hup, if_true]
        obtain ⟨h1, h2⟩ := BitmapContainer.bmc_from_iter_spec (arrInsert v ac.array) hb2
        refine ⟨h1, ?_, by simp [Container.elems_Array, hmem]⟩
        intro x
        exact ⟨fun h => mem_arrInsert.mp ((h2 x).mp h),
          fun h => (h2 x).mpr (mem_arrInsert.mpr h)⟩
      · simp only [hup, Bool.false_eq_true, if_false]
        refine ⟨⟨hs2, hb2⟩, ?_, by simp [Container.elems_Array, hmem]⟩
        intro x
        exact mem_arrInsert

theorem Container.foldAdd_spec (l : List Nat) (hl : ∀ v ∈ l, v < 65536) :
    ∀ (c : Container), c.wf →
      (l.foldl (fun acc v => (acc.add v).1) c).wf ∧
      (∀ x, x ∈ (l.foldl (fun acc v => (acc.add v).1) c).elems ↔ x ∈ l ∨ x ∈ c.elems) := by
  induction l with
  | nil => intro c hc; simpa using hc
  | cons a t ih =>
    intro c hc
    have ha : a < 65536 := hl a (by simp)
    have hstep := Container.c_add_spec hc ha
    obtain ⟨h1, h2⟩ := ih (fun v hv => hl v (by simp [hv])) (c.add a).1 hstep.1
    refine ⟨by simpa using h1, ?_⟩
    intro x
    simp only [List.foldl_cons]
    rw [h2 x, hstep.2.1 x]
    simp only [List.mem_cons]
    tauto

/-! ## Minimum / maximum / has_overlap lemmas -/

theorem maxWordsAux_none_iff {ws : List Nat} {i : Nat} :
    maxWordsAux ws i = none ↔ ∀ w ∈ ws, w = 0 := by
  induction ws generalizing i with
  | nil => simp [maxWordsAux]
  | cons w t ih =>
    rw [maxWordsAux]
    cases htail : maxWordsAux t (i + 1) with
    | some m =>
      simp only [reduceCtorEq, false_iff]
      push_neg
      have : ¬ (∀ w2 ∈ t, w2 = 0) := by
        intro hall
        rw [(@ih (i + 1)).mpr hall] at htail
        exact absurd htail (by simp)
      push_neg at this
      obtain ⟨w2, hw2, hne⟩ := this
      exact ⟨w2, by simp [hw2], hne⟩
    | none =>
      by_cases hw : w = 0
      · rw [if_pos hw]
        constructor
        · intro _ w2 hw2
          rcases List.mem_cons.mp hw2 with rfl | h
          · exact hw
          · exact (ih.mp htail) w2 h
        · intro _
          rfl
      · simp only [if_neg hw, reduceCtorEq, false_iff]
        push_neg
        exact ⟨w, by simp, hw⟩

theorem bitmapElemsAux_nil_iff {ws : List Nat} (hb : ∀ w ∈ ws, w < 2 ^ 64) {i : Nat} :
    bitmapElemsAux ws i = [] ↔ ∀ w ∈ ws, w = 0 := by
  induction ws generalizing i with
  | nil => simp [bitmapElemsAux]
  | cons w t ih =>
    have hbt : ∀ w2 ∈ t, w2 < 2 ^ 64 := fun w2 h => hb w2 (by simp [h])
    rw [bitmapElemsAux]
    rw [List.append_eq_nil, List.map_eq_nil_iff]
    constructor
    · rintro ⟨h1, h2⟩
      intro w2 hw2
      rcases List.mem_cons.mp hw2 with rfl | h
      · by_contra hne
        have : w2.log2 ∈ wordBits w2 := by
          rw [mem_wordBits]
          exact ⟨log2_lt_64 hne (hb w2 (by simp)), testBit_log2 hne⟩
        rw [h1] at this
        simp at this
      · exact ((ih hbt).mp h2) w2 h
    · intro hall
      have hw0 : w = 0 := hall w (by simp)
      refine ⟨by rw [hw0, wordBits_zero], (ih hbt).mpr (fun w2 hw2 => hall w2 (by simp [hw2]))⟩

theorem maxWordsAux_eq {ws : List Nat} (hb : ∀ w ∈ ws, w < 2 ^ 64) (i : Nat) :
    maxWordsAux ws i = (bitmapElemsAux ws i).getLast? := by
  induction ws generalizing i with
  | nil => simp [maxWordsAux, bitmapElemsAux]
  | cons w t ih =>
    have hbt : ∀ w2 ∈ t, w2 < 2 ^ 64 := fun w2 h => hb w2 (by simp [h])
    rw [maxWordsAux, bitmapElemsAux, List.getLast?_append]
    cases htail : maxWordsAux t (i + 1) with
    | some m =>
      rw [ih hbt] at htail
      rw [htail]
      rfl
    | none =>
      have hall := maxWordsAux_none_iff.mp htail
      have : bitmapElemsAux t (i + 1) = [] := (bitmapElemsAux_nil_iff hbt).mpr hall
      rw [ih hbt] at htail
      rw [htail]
      simp only [Option.none_or]
      by_cases hw : w = 0
      · rw [if_pos hw, hw, wordBits_zero]
        rfl
      · rw [if_neg hw]
        rw [List.getLast?_map]
        rw [wordBits_getLast hw (hb w (by simp))]
        rfl

theorem Container.minimum_eq (c : Container) : c.minimum = c.elems.head? := by
  cases c with
  | Array ac => rfl
  | Bitmap bc => rfl

theorem Container.maximum_eq {c : Container} (hc : c.wf) :
    c.maximum = c.elems.getLast? := by
  cases c with
  | Array ac => rfl
  | Bitmap bc => exact maxWordsAux_eq hc.2.1 0

theorem has_overlap_some {a b : Container} (ha : a.wf) (hb : b.wf)
    (hna : a.elems ≠ []) (hnb : b.elems ≠ []) :
    ∃ ov, has_overlap a b = some ov := by
  obtain ⟨x, xs, hx⟩ := List.exists_cons_of_ne_nil hna
  obtain ⟨y, ys, hy⟩ := List.exists_cons_of_ne_nil hnb
  rw [has_overlap, Container.minimum_eq, Container.minimum_eq,
    Container.maximum_eq ha, Container.maximum_eq hb, hx, hy]
  rw [List.head?_cons, List.head?_cons]
  cases hgx : (x :: xs).getLast? with
  | none => rw [List.getLast?_eq_none_iff] at hgx; simp at hgx
  | some gx =>
    cases hgy : (y :: ys).getLast? with
    | none => rw [List.getLast?_eq_none_iff] at hgy; simp at hgy
    | some gy => exact ⟨_, rfl⟩

theorem has_overlap_true_of_subset {a b : Container} (ha : a.wf) (hb : b.wf)
    (hna : a.elems ≠ []) (hnb : b.elems ≠ [])
    (hsub : ∀ x ∈ a.elems, x ∈ b.elems) :
    has_overlap a b = some true := by
  obtain ⟨x, xs, hx⟩ := List.exists_cons_of_ne_nil hna
  obtain ⟨y, ys, hy⟩ := List.exists_cons_of_ne_nil hnb
  have hsa := Container.elems_sorted ha
  have hsb := Container.elems_sorted hb
  rw [has_overlap, Container.minimum_eq, Container.minimum_eq,
    Container.maximum_eq ha, Container.maximum_eq hb]
  cases hgx : a.elems.getLast? with
  | none => rw [List.getLast?_eq_none_iff] at hgx; exact absurd hgx hna
  | some gx =>
    cases hgy : b.elems.getLast? with
    | none => rw [List.getLast?_eq_none_iff] at hgy; exact absurd hgy hnb
    | some gy =>
      rw [hx, List.head?_cons, hy, List.head?_cons]
      simp only [Option.some.injEq]
      have hgxm : gx ∈ a.elems := List.mem_of_mem_getLast? (by simp [hgx])
      have hym : y ∈ b.elems := by rw [hy]; simp
      have hxm : x ∈ a.elems := by rw [hx]; simp
      have h1 : y ≤ x := sorted_head_le hsb (by rw [hy]; rfl) (hsub x hxm)
      have h2 : gx ≤ gy := sorted_le_getLast hsb hgy gx (hsub gx hgxm)
      have h3 : x ≤ gx := sorted_le_getLast hsa hgx x hxm
      simp only [decide_eq_true_eq]
      omega

/-! ## Container set-operation specs -/

theorem BitmapContainer.union_with_array_spec {bc : BitmapContainer}
    {oc : ArrayContainer} (hbc : bc.wf) (hoc : oc.wf) :
    (bc.union_with_array_container oc).wf ∧
    (∀ x, x ∈ (bc.union_with_array_container oc).elems ↔
      x ∈ bc.elems ∨ x ∈ oc.array) := by
  obtain ⟨h1, h2⟩ := BitmapContainer.bmc_foldAdd_spec oc.array hoc.2
    ⟨bc.bitmap, bc.cardinality⟩ hbc
  rw [BitmapContainer.union_with_array_container]
  refine ⟨h1, fun x => ?_⟩
  rw [Container.elems_Bitmap, h2 x]
  tauto

theorem wordwise_bitmap_wf {g : Nat → Nat}
    (hbg : ∀ i, i < BITMAP_SIZE → g i < 2 ^ 64) :
    (BitmapContainer.mk ((List.range BITMAP_SIZE).map g)
      ((((List.range BITMAP_SIZE).map g).map countOnes).sum)).wf := by
  refine ⟨by rw [List.length_map, List.length_range], ?_, ?_⟩
  · intro w hw
    obtain ⟨i, hi, rfl⟩ := List.mem_map.mp hw
    exact hbg i (List.mem_range.mp hi)
  · exact (bitmapElemsAux_length _ 0).symm

theorem Container.union_spec {a b : Container} (ha : a.wf) (hb : b.wf) :
    (a.union b).wf ∧
    (∀ x, x ∈ (a.union b).elems ↔ x ∈ a.elems ∨ x ∈ b.elems) := by
  cases a with
  | Array ac =>
    cases b with
    | Array oc =>
      rw [Container.union, ArrayContainer.union]
      obtain ⟨hu1, hu2⟩ := btreeSetOf_spec (ac.array ++ oc.array)
      have humem : ∀ x, x ∈ btreeSetOf (ac.array ++ oc.array) ↔
          x ∈ ac.array ∨ x ∈ oc.array := by
        intro x
        rw [hu2 x, List.mem_append]
      have hubound : ∀ x ∈ btreeSetOf (ac.array ++ oc.array), x < 65536 := by
        intro x hx
        rcases (humem x).mp hx with h | h
        · exact ha.2 x h
        · exact hb.2 x h
      by_cases hlen : ARRAY_MAX_SIZE ≤ (btreeSetOf (ac.array ++ oc.array)).length
      · rw [if_pos hlen]
        obtain ⟨h1, h2⟩ := BitmapContainer.bmc_from_iter_spec _ hubound
        refine ⟨h1, fun x => ?_⟩
        rw [Container.elems_Bitmap, h2 x, humem x]
        rfl
      · rw [if_neg hlen]
        refine ⟨⟨hu1, hubound⟩, fun x => ?_⟩
        rw [Container.elems_Array]
        exact humem x
    | Bitmap ob =>
      rw [Container.union, ArrayContainer.union]
      obtain ⟨h1, h2⟩ := BitmapContainer.union_with_array_spec hb ha
      refine ⟨h1, fun x => ?_⟩
      rw [h2 x]
      tauto
  | Bitmap bc =>
    cases b with
    | Array oc =>
      rw [Container.union, BitmapContainer.union]
      exact BitmapContainer.union_with_array_spec ha hb
    | Bitmap ob =>
      rw [Container.union, BitmapContainer.union]
      have hbg : ∀ i, i < BITMAP_SIZE →
          bc.bitmap.getD i 0 ||| ob.bitmap.getD i 0 < 2 ^ 64 := by
        intro i hi
        apply Nat.or_lt_two_pow
        · exact ha.2.1 _ (getD_mem (by rw [ha.1]; exact hi) 0)
        · exact hb.2.1 _ (getD_mem (by rw [hb.1]; exact hi) 0)
      refine ⟨wordwise_bitmap_wf hbg, fun x => ?_⟩
      rw [Container.elems_Bitmap, Container.elems_Bitmap, Container.elems_Bitmap]
      rw [BitmapContainer.elems, mem_rangeMap_bitmap]
      rw [BitmapContainer.elems, mem_bitmapElems ha.1,
        BitmapContainer.elems, mem_bitmapElems hb.1]
      rw [Nat.testBit_lor]
      constructor
      · rintro ⟨hx, hbit⟩
        rcases Bool.or_eq_true_iff.mp hbit with h | h
        · exact Or.inl ⟨hx, h⟩
        · exact Or.inr ⟨hx, h⟩
      · rintro (⟨hx, h⟩ | ⟨hx, h⟩)
        · exact ⟨hx, Bool.or_eq_true_iff.mpr (Or.inl h)⟩
        · exact ⟨hx, Bool.or_eq_true_iff.mpr (Or.inr h)⟩

theorem foldIf_eq (p : Nat → Bool) (l : List Nat) :
    ∀ (acc : Container),
      l.foldl (fun acc v => if p v then (acc.add v).1 else acc) acc =
      (l.filter p).foldl (fun acc v => (acc.add v).1) acc := by
  induction l with
  | nil => intro acc; rfl
  | cons a t ih =>
    intro acc
    by_cases h : p a
    · rw [List.foldl_cons, if_pos h, List.filter_cons_of_pos h, List.foldl_cons, ih]
    · rw [List.foldl_cons, if_neg h, List.filter_cons_of_neg h, ih]

theorem BitmapContainer.intersect_with_array_spec {bc : BitmapContainer}
    {oc : ArrayContainer} (hbc : bc.wf) (hoc : oc.wf) :
    (bc.intersect_with_array_container oc).wf ∧
    (∀ x, x ∈ (bc.intersect_with_array_container oc).elems ↔
      x ∈ oc.array ∧ x ∈ bc.elems) := by
  rw [BitmapContainer.intersect_with_array_container,
    foldIf_eq (fun v => bc.contains v) oc.array]
  have hbound : ∀ v ∈ oc.array.filter (fun v => bc.contains v), v < 65536 := by
    intro v hv
    exact hoc.2 v (List.mem_filter.mp hv).1
  obtain ⟨h1, h2⟩ := Container.foldAdd_spec _ hbound (.Array ⟨[]⟩) ⟨by simp, by simp⟩
  refine ⟨h1, fun x => ?_⟩
  rw [h2 x]
  simp only [Container.elems_Array, List.not_mem_nil, or_false, List.mem_filter]
  constructor
  · rintro ⟨hx, hb⟩
    exact ⟨hx, (BitmapContainer.bmc_contains_iff hbc.1 (hoc.2 x hx)).mp hb⟩
  · rintro ⟨hx, hb⟩
    exact ⟨hx, (BitmapContainer.bmc_contains_iff hbc.1 (hoc.2 x hx)).mpr hb⟩

theorem zipWith_land_wf {a b : List Nat} (hla : a.length = BITMAP_SIZE)
    (hlb : b.length = BITMAP_SIZE) (hba : ∀ w ∈ a, w < 2 ^ 64) :
    (BitmapContainer.mk (List.zipWith (fun x y => x &&& y) a b)
      (((List.zipWith (fun x y => x &&& y) a b).map countOnes).sum)).wf := by
  have hlen : (List.zipWith (fun x y => x &&& y) a b).length = BITMAP_SIZE := by
    rw [List.length_zipWith, hla, hlb]
    simp
  refine ⟨hlen, ?_, (bitmapElemsAux_length _ 0).symm⟩
  intro w hw
  rw [List.mem_iff_getElem] at hw
  obtain ⟨i, hi, rfl⟩ := hw
  rw [List.getElem_zipWith]
  have hia : i < a.length := by
    rw [List.length_zipWith] at hi
    omega
  calc a[i] &&& _ ≤ a[i] := Nat.and_le_left
    _ < 2 ^ 64 := hba _ (List.getElem_mem _)

theorem has_overlap_eq {a b : Container} (ha : a.wf) (hb : b.wf)
    {x gx y gy : Nat} (hxa : a.elems.head? = some x) (hga : a.elems.getLast? = some gx)
    (hyb : b.elems.head? = some y) (hgb : b.elems.getLast? = some gy) :
    has_overlap a b = some (decide (max x y ≤ min gx gy)) := by
  rw [has_overlap, Container.minimum_eq, Container.minimum_eq,
    Container.maximum_eq ha, Container.maximum_eq hb, hxa, hga, hyb, hgb]

theorem Container.intersect_overlap_array {ac : ArrayContainer} {b : Container}
    (h : has_overlap (.Array ac) b = some true) :
    (Container.Array ac).intersect b = some (ac.intersect b) := by
  rw [Container.intersect.eq_def, h]

theorem Container.intersect_overlap_bitmap {bc : BitmapContainer} {b : Container}
    (h : has_overlap (.Bitmap bc) b = some true) :
    (Container.Bitmap bc).intersect b = some (bc.intersect b) := by
  rw [Container.intersect.eq_def, h]

theorem Container.intersect_of_no_overlap {a b : Container}
    (h : has_overlap a b = some false) :
    a.intersect b = some (.Array ArrayContainer.new) := by
  cases a with
  | Array ac => rw [Container.intersect.eq_def, h]
  | Bitmap bc => rw [Container.intersect.eq_def, h]

theorem BitmapContainer.intersect_bitmap_spec {bc ob : BitmapContainer}
    (ha : bc.wf) (hb : ob.wf) :
    (bc.intersect (.Bitmap ob)).wf ∧
    (∀ x, x ∈ (bc.intersect (.Bitmap ob)).elems ↔ x ∈ bc.elems ∧ x ∈ ob.elems) := by
  rw [BitmapContainer.intersect]
  have hwf2 := zipWith_land_wf ha.1 hb.1 ha.2.1
  have hmem2 : ∀ x, x ∈ bitmapElemsAux (List.zipWith (fun x y => x &&& y) bc.bitmap ob.bitmap) 0 ↔
      x ∈ bc.elems ∧ x ∈ ob.elems := by
    intro x
    rw [mem_zipWith_bitmap (fun x y => x &&& y) ha.1 hb.1]
    rw [BitmapContainer.elems, mem_bitmapElems ha.1,
      BitmapContainer.elems, mem_bitmapElems hb.1]
    rw [Nat.testBit_land]
    constructor
    · rintro ⟨hx, hbit⟩
      rcases Bool.and_eq_true_iff.mp hbit with ⟨h1, h2⟩
      exact ⟨⟨hx, h1⟩, ⟨hx, h2⟩⟩
    · rintro ⟨⟨hx, h1⟩, ⟨_, h2⟩⟩
      exact ⟨hx, Bool.and_eq_true_iff.mpr ⟨h1, h2⟩⟩
  by_cases hdg : (BitmapContainer.mk (List.zipWith (fun x y => x &&& y) bc.bitmap ob.bitmap)
      (((List.zipWith (fun x y => x &&& y) bc.bitmap ob.bitmap).map countOnes).sum)).should_downgrade
  · rw [if_pos hdg]
    refine ⟨⟨bitmapElemsAux_sorted _ _, ?_⟩, fun x => hmem2 x⟩
    intro x hx
    exact BitmapContainer.bmc_elems_bound hwf2.1 x hx
  · rw [if_neg hdg]
    exact ⟨hwf2, fun x => hmem2 x⟩

theorem Container.intersect_spec {a b : Container} (ha : a.wf) (hb : b.wf)
    (hna : a.elems ≠ []) (hnb : b.elems ≠ []) :
    ∃ c, a.intersect b = some c ∧ c.wf ∧
      (∀ x, x ∈ c.elems ↔ x ∈ a.elems ∧ x ∈ b.elems) := by
  obtain ⟨x0, xs, hx0⟩ := List.exists_cons_of_ne_nil hna
  obtain ⟨y0, ys, hy0⟩ := List.exists_cons_of_ne_nil hnb
  have hxa : a.elems.head? = some x0 := by rw [hx0]; rfl
  have hyb : b.elems.head? = some y0 := by rw [hy0]; rfl
  obtain ⟨gx, hga⟩ : ∃ gx, a.elems.getLast? = some gx := by
    cases h : a.elems.getLast? with
    | none => rw [List.getLast?_eq_none_iff] at h; exact absurd h hna
    | some gx => exact ⟨gx, rfl⟩
  obtain ⟨gy, hgb⟩ : ∃ gy, b.elems.getLast? = some gy := by
    cases h : b.elems.getLast? with
    | none => rw [List.getLast?_eq_none_iff] at h; exact absurd h hnb
    | some gy => exact ⟨gy, rfl⟩
  have hov := has_overlap_eq ha hb hxa hga hyb hgb
  by_cases hcase : max x0 y0 ≤ min gx gy
  · rw [(by simp [hcase] : decide (max x0 y0 ≤ min gx gy) = true)] at hov
    cases a with
    | Array ac =>
      rw [Container.intersect_overlap_array hov]
      cases b with
      | Array oc =>
        refine ⟨_, rfl, ?_, ?_⟩
        · refine ⟨hb.1.filter _, ?_⟩
          intro z hz
          exact hb.2 z (List.mem_filter.mp hz).1
        · intro z
          show z ∈ oc.array.filter (fun v => ac.array.contains v) ↔ _
          rw [List.mem_filter, contains_eq_mem]
          simp only [Container.elems_Array]
          tauto
      | Bitmap ob =>
        obtain ⟨h1, h2⟩ := BitmapContainer.intersect_with_array_spec hb ha
        exact ⟨_, rfl, h1, fun z => h2 z⟩
    | Bitmap bc =>
      rw [Container.intersect_overlap_bitmap hov]
      cases b with
      | Array oc =>
        obtain ⟨h1, h2⟩ := BitmapContainer.intersect_with_array_spec ha hb
        refine ⟨_, rfl, h1, fun z => ?_⟩
        show z ∈ (bc.intersect_with_array_container oc).elems ↔ _
        rw [h2 z]
        simp only [Container.elems_Array, Container.elems_Bitmap]
        tauto
      | Bitmap ob =>
        obtain ⟨h1, h2⟩ := BitmapContainer.intersect_bitmap_spec ha hb
        exact ⟨_, rfl, h1, h2⟩
  · rw [(by simp [hcase] : decide (max x0 y0 ≤ min gx gy) = false)] at hov
    rw [Container.intersect_of_no_overlap hov]
    refine ⟨_, rfl, ⟨by simp [ArrayContainer.new], by simp [ArrayContainer.new]⟩, ?_⟩
    intro z
    simp only [Container.elems_Array, ArrayContainer.new, List.not_mem_nil, false_iff]
    rintro ⟨hza, hzb⟩
    have h1 : x0 ≤ z := sorted_head_le (Container.elems_sorted ha) hxa hza
    have h2 : y0 ≤ z := sorted_head_le (Container.elems_sorted hb) hyb hzb
    have h3 : z ≤ gx := sorted_le_getLast (Container.elems_sorted ha) hga z hza
    have h4 : z ≤ gy := sorted_le_getLast (Container.elems_sorted hb) hgb z hzb
    omega

theorem mergeSort_sorted_lt {l : List Nat} (hn : l.Nodup) :
    List.Sorted (· < ·) (List.insertionSort (· ≤ ·) l) :=
  nodup_sorted_le_sorted_lt (mergeSort_le_sorted l)
    ((List.perm_insertionSort (· ≤ ·) l).nodup_iff.mpr hn)


theorem symdiff_array_wf {u v : List Nat} (hu : List.Sorted (· < ·) u)
    (hv : List.Sorted (· < ·) v) (hub : ∀ x ∈ u, x < 65536)
    (hvb : ∀ x ∈ v, x < 65536) (p q : Nat → Bool)
    (hdisj : ∀ x, x ∈ u → p x = true → x ∈ v → q x = true → False) :
    (ArrayContainer.mk (List.insertionSort (· ≤ ·) (u.filter p ++ v.filter q))).wf := by
  have hn : (u.filter p ++ v.filter q).Nodup := by
    refine List.Nodup.append (hu.nodup.filter p) (hv.nodup.filter q) ?_
    intro x hx1 hx2
    obtain ⟨hxu, hpu⟩ := List.mem_filter.mp hx1
    obtain ⟨hxv, hpv⟩ := List.mem_filter.mp hx2
    exact hdisj x hxu hpu hxv hpv
  refine ⟨mergeSort_sorted_lt hn, ?_⟩
  intro x hx
  have hx2 := mem_mergeSort_le.mp hx
  rcases List.mem_append.mp hx2 with h | h
  · exact hub x (List.mem_filter.mp h).1
  · exact hvb x (List.mem_filter.mp h).1


theorem BitmapContainer.bmc_to_best_spec2 {c : BitmapContainer} (hc : c.wf) :
    ∃ r, c.to_best_container = r ∧ r.wf ∧ (∀ x, x ∈ r.elems ↔ x ∈ c.elems) :=
  ⟨_, rfl, (BitmapContainer.bmc_to_best_spec hc).1, (BitmapContainer.bmc_to_best_spec hc).2⟩

theorem ArrayContainer.ac_to_best_spec2 {c : ArrayContainer} (hc : c.wf) :
    ∃ r, c.to_best_container = r ∧ r.wf ∧ (∀ x, x ∈ r.elems ↔ x ∈ c.array) :=
  ⟨_, rfl, (ArrayContainer.ac_to_best_spec hc).1, (ArrayContainer.ac_to_best_spec hc).2⟩

theorem Container.difference_AA (ac oc : ArrayContainer) :
    (Container.Array ac).difference (.Array oc) =
      .Array ⟨ac.array.filter (fun v => !oc.array.contains v)⟩ := rfl

theorem Container.difference_AB (ac : ArrayContainer) (ob : BitmapContainer) :
    (Container.Array ac).difference (.Bitmap ob) =
      .Array ⟨ac.array.filter (fun v => !ob.contains v)⟩ := rfl

theorem Container.difference_BA (bc : BitmapContainer) (oc : ArrayContainer) :
    (Container.Bitmap bc).difference (.Array oc) =
      (ArrayContainer.mk (bc.elems.filter (fun v => !oc.contains v))).to_best_container := rfl

theorem Container.difference_BB (bc ob : BitmapContainer) :
    (Container.Bitmap bc).difference (.Bitmap ob) =
      (BitmapContainer.mk ((List.range BITMAP_SIZE).map
          (fun i => bc.bitmap.getD i 0 &&& (U64MAX ^^^ ob.bitmap.getD i 0)))
        ((((List.range BITMAP_SIZE).map
          (fun i => bc.bitmap.getD i 0 &&& (U64MAX ^^^ ob.bitmap.getD i 0))).map
            countOnes).sum)).to_best_container := rfl

theorem Container.difference_spec {a b : Container} (ha : a.wf) (hb : b.wf) :
    ∃ r, a.difference b = r ∧ r.wf := by
  cases a with
  | Array ac =>
    cases b with
    | Array oc =>
      refine ⟨_, Container.difference_AA ac oc, ⟨ha.1.filter _, ?_⟩⟩
      intro z hz
      exact ha.2 z (List.mem_filter.mp hz).1
    | Bitmap ob =>
      refine ⟨_, Container.difference_AB ac ob, ⟨ha.1.filter _, ?_⟩⟩
      intro z hz
      exact ha.2 z (List.mem_filter.mp hz).1
  | Bitmap bc =>
    cases b with
    | Array oc =>
      obtain ⟨r, hr, hwf, hmem⟩ := ArrayContainer.ac_to_best_spec2
        ⟨(BitmapContainer.bmc_elems_sorted bc).filter _, fun z hz =>
          BitmapContainer.bmc_elems_bound ha.1 z (List.mem_filter.mp hz).1⟩
      exact ⟨r, (Container.difference_BA bc oc).trans hr, hwf⟩
    | Bitmap ob =>
      have hbg : ∀ i, i < BITMAP_SIZE →
          bc.bitmap.getD i 0 &&& (U64MAX ^^^ ob.bitmap.getD i 0) < 2 ^ 64 := by
        intro i hi
        calc bc.bitmap.getD i 0 &&& (U64MAX ^^^ ob.bitmap.getD i 0)
            ≤ bc.bitmap.getD i 0 := Nat.and_le_left
          _ < 2 ^ 64 := ha.2.1 _ (getD_mem (by rw [ha.1]; exact hi) 0)
      obtain ⟨r, hr, hwf, hmem⟩ := BitmapContainer.bmc_to_best_spec2 (wordwise_bitmap_wf hbg)
      exact ⟨r, (Container.difference_BB bc ob).trans hr, hwf⟩

theorem Container.symdiff_AA (ac oc : ArrayContainer) :
    (Container.Array ac).symmetric_difference (.Array oc) =
      (ArrayContainer.mk (List.insertionSort (· ≤ ·)
        (oc.array.filter (fun v => !ac.array.contains v)
          ++ ac.array.filter (fun v => !oc.array.contains v)))).to_best_container := rfl

theorem Container.symdiff_AB (ac : ArrayContainer) (ob : BitmapContainer) :
    (Container.Array ac).symmetric_difference (.Bitmap ob) =
      (ArrayContainer.mk (List.insertionSort (· ≤ ·)
        (ob.elems.filter (fun v => !ac.array.contains v)
          ++ ac.array.filter (fun v => ob.contains v)))).to_best_container := rfl

theorem Container.symdiff_BA (bc : BitmapContainer) (oc : ArrayContainer) :
    (Container.Bitmap bc).symmetric_difference (.Array oc) =
      (ArrayContainer.mk (List.insertionSort (· ≤ ·)
        (bc.elems.filter (fun v => !oc.array.contains v)
          ++ oc.array.filter (fun v => bc.contains v)))).to_best_container := rfl

theorem Container.symdiff_BB (bc ob : BitmapContainer) :
    (Container.Bitmap bc).symmetric_difference (.Bitmap ob) =
      (BitmapContainer.mk ((List.range BITMAP_SIZE).map
          (fun i => bc.bitmap.getD i 0 ^^^ ob.bitmap.getD i 0))
        ((((List.range BITMAP_SIZE).map
          (fun i => bc.bitmap.getD i 0 ^^^ ob.bitmap.getD i 0)).map
            countOnes).sum)).to_best_container := rfl

theorem Container.symmetric_difference_spec {a b : Container} (ha : a.wf)
    (hb : b.wf) : ∃ r, a.symmetric_difference b = r ∧ r.wf := by
  cases a with
  | Array ac =>
    cases b with
    | Array oc =>
      obtain ⟨r, hr, hwf, hmem⟩ := ArrayContainer.ac_to_best_spec2
        (symdiff_array_wf hb.1 ha.1 hb.2 ha.2
          (fun v => !ac.array.contains v) (fun v => !oc.array.contains v)
          (fun x hxu hp hxv hq => by
            rw [Bool.not_eq_eq_eq_not, Bool.not_true] at hp
            have hcon := (contains_eq_mem _ _).mpr hxv
            rw [hp] at hcon
            exact Bool.noConfusion hcon))
      exact ⟨r, (Container.symdiff_AA ac oc).trans hr, hwf⟩
    | Bitmap ob =>
      obtain ⟨r, hr, hwf, hmem⟩ := ArrayContainer.ac_to_best_spec2
        (symdiff_array_wf (Container.elems_sorted hb) ha.1
          (Container.elems_bound hb) ha.2
          (fun v => !ac.array.contains v) (fun v => ob.contains v)
          (fun x hxu hp hxv hq => by
            rw [Bool.not_eq_eq_eq_not, Bool.not_true] at hp
            have hcon := (contains_eq_mem _ _).mpr hxv
            rw [hp] at hcon
            exact Bool.noConfusion hcon))
      exact ⟨r, (Container.symdiff_AB ac ob).trans hr, hwf⟩
  | Bitmap bc =>
    cases b with
    | Array oc =>
      obtain ⟨r, hr, hwf, hmem⟩ := ArrayContainer.ac_to_best_spec2
        (symdiff_array_wf (Container.elems_sorted ha) hb.1
          (Container.elems_bound ha) hb.2
          (fun v => !oc.array.contains v) (fun v => bc.contains v)
          (fun x hxu hp hxv hq => by
            rw [Bool.not_eq_eq_eq_not, Bool.not_true] at hp
            have hcon := (contains_eq_mem _ _).mpr hxv
            rw [hp] at hcon
            exact Bool.noConfusion hcon))
      exact ⟨r, (Container.symdiff_BA bc oc).trans hr, hwf⟩
    | Bitmap ob =>
      have hbg : ∀ i, i < BITMAP_SIZE →
          bc.bitmap.getD i 0 ^^^ ob.bitmap.getD i 0 < 2 ^ 64 := by
        intro i hi
        exact Nat.xor_lt_two_pow
          (ha.2.1 _ (getD_mem (by rw [ha.1]; exact hi) 0))
          (hb.2.1 _ (getD_mem (by rw [hb.1]; exact hi) 0))
      obtain ⟨r, hr, hwf, hmem⟩ := BitmapContainer.bmc_to_best_spec2 (wordwise_bitmap_wf hbg)
      exact ⟨r, (Container.symdiff_BB bc ob).trans hr, hwf⟩

theorem Container.is_subset_sound {a b : Container} (ha : a.wf) (hb : b.wf)
    (h : a.is_subset b = true) : ∀ x ∈ a.elems, x ∈ b.elems := by
  intro x hx
  cases a with
  | Array ac =>
    cases b with
    | Array oc =>
      simp only [Container.is_subset, ArrayContainer.is_subset] at h
      by_cases hcond : Container.cardinality (.Array oc) < ac.cardinality
      · rw [if_pos hcond] at h
        exact Bool.noConfusion h
      · rw [if_neg hcond] at h
        have := List.all_eq_true.mp h x hx
        exact (contains_eq_mem _ _).mp this
    | Bitmap ob =>
      simp only [Container.is_subset, ArrayContainer.is_subset] at h
      have := List.all_eq_true.mp h x hx
      exact (BitmapContainer.bmc_contains_iff hb.1 (ha.2 x hx)).mp this
  | Bitmap bc =>
    cases b with
    | Array oc =>
      simp only [Container.is_subset, BitmapContainer.is_subset] at h
      exact Bool.noConfusion h
    | Bitmap ob =>
      simp only [Container.is_subset, BitmapContainer.is_subset] at h
      by_cases hcond : Container.cardinality (.Bitmap ob) < bc.cardinality
      · rw [if_pos hcond] at h
        exact Bool.noConfusion h
      · rw [if_neg hcond] at h
        have hxb : x < 65536 := Container.elems_bound ha x hx
        have hbit := (BitmapContainer.bmc_contains_iff ha.1 hxb).mpr hx
        simp only [BitmapContainer.contains, BitmapContainer.is_one_at_position,
          find_position_in_bitmap] at hbit
        have hi := List.all_eq_true.mp h (x / 64)
          (List.mem_range.mpr (by simp only [BITMAP_SIZE]; omega))
        have heq : bc.bitmap.getD (x / 64) 0 &&& ob.bitmap.getD (x / 64) 0 =
            bc.bitmap.getD (x / 64) 0 := by
          exact eq_of_beq hi
        refine (BitmapContainer.bmc_contains_iff hb.1 hxb).mp ?_
        simp only [BitmapContainer.contains, BitmapContainer.is_one_at_position,
          find_position_in_bitmap]
        have : (bc.bitmap.getD (x / 64) 0 &&& ob.bitmap.getD (x / 64) 0).testBit (x % 64) =
            (bc.bitmap.getD (x / 64) 0).testBit (x % 64) := by rw [heq]
        rw [Nat.testBit_land, hbit] at this
        simpa using this.symm

/-! ## ContainerIndex (sorted association list) lemmas -/

theorem idxLookup_idxInsert (m : List (Nat × Container)) (k : Nat) (c : Container)
    (k2 : Nat) :
    idxLookup (idxInsert m k c) k2 = if k = k2 then some c else idxLookup m k2 := by
  induction m with
  | nil =>
    by_cases h : k = k2 <;> simp [idxInsert, idxLookup, h]
  | cons kc rest ih =>
    by_cases h1 : k < kc.1
    · rw [idxInsert, if_pos h1]
      by_cases h : k = k2 <;> simp [idxLookup, h]
    · by_cases h2 : k = kc.1
      · rw [idxInsert, if_neg h1, if_pos h2]
        by_cases h : k = k2
        · simp [idxLookup, h]
        · simp only [idxLookup]
          rw [if_neg h, if_neg h, if_neg (by omega : ¬ kc.1 = k2)]
      · rw [idxInsert, if_neg h1, if_neg h2]
        by_cases h : kc.1 = k2
        · have hne : ¬ k = k2 := by omega
          simp only [idxLookup]
          rw [if_pos h, if_pos h, if_neg hne]
        · simp only [idxLookup]
          rw [if_neg h, if_neg h, ih]

theorem mem_idxInsert {m : List (Nat × Container)} {k : Nat} {c : Container}
    {kc : Nat × Container} (h : kc ∈ idxInsert m k c) : kc = (k, c) ∨ kc ∈ m := by
  induction m with
  | nil => simpa [idxInsert] using h
  | cons kc2 rest ih =>
    by_cases h1 : k < kc2.1
    · rw [idxInsert, if_pos h1] at h
      rcases List.mem_cons.mp h with rfl | h2
      · exact Or.inl rfl
      · exact Or.inr h2
    · by_cases h2 : k = kc2.1
      · rw [idxInsert, if_neg h1, if_pos h2] at h
        rcases List.mem_cons.mp h with rfl | h3
        · exact Or.inl rfl
        · exact Or.inr (by simp [h3])
      · rw [idxInsert, if_neg h1, if_neg h2] at h
        rcases List.mem_cons.mp h with rfl | h3
        · exact Or.inr (by simp)
        · rcases ih h3 with h4 | h4
          · exact Or.inl h4
          · exact Or.inr (by simp [h4])

theorem idxInsert_keys_sorted {m : List (Nat × Container)}
    (hs : List.Sorted (· < ·) (m.map Prod.fst)) (k : Nat) (c : Container) :
    List.Sorted (· < ·) ((idxInsert m k c).map Prod.fst) := by
  induction m with
  | nil => simp [idxInsert]
  | cons kc2 rest ih =>
    rw [List.map_cons, List.sorted_cons] at hs
    obtain ⟨hhead, htail⟩ := hs
    by_cases h1 : k < kc2.1
    · rw [idxInsert, if_pos h1, List.map_cons, List.sorted_cons]
      refine ⟨?_, by rw [List.map_cons, List.sorted_cons]; exact ⟨hhead, htail⟩⟩
      intro b hb
      rw [List.map_cons] at hb
      rcases List.mem_cons.mp hb with rfl | h2
      · exact h1
      · exact lt_trans h1 (hhead b h2)
    · by_cases h2 : k = kc2.1
      · rw [idxInsert, if_neg h1, if_pos h2, List.map_cons, List.sorted_cons]
        refine ⟨?_, htail⟩
        intro b hb
        rw [h2]
        exact hhead b hb
      · rw [idxInsert, if_neg h1, if_neg h2, List.map_cons, List.sorted_cons]
        refine ⟨?_, ih htail⟩
        intro b hb
        obtain ⟨kc3, hkc3, rfl⟩ := List.mem_map.mp hb
        rcases mem_idxInsert hkc3 with rfl | h3
        · omega
        · exact hhead _ (List.mem_map.mpr ⟨kc3, h3, rfl⟩)

theorem idxLookup_mem {m : List (Nat × Container)} {k : Nat} {c : Container}
    (h : idxLookup m k = some c) : (k, c) ∈ m := by
  induction m with
  | nil => simp [idxLookup] at h
  | cons kc rest ih =>
    rw [idxLookup] at h
    by_cases h1 : kc.1 = k
    · rw [if_pos h1] at h
      rcases kc with ⟨k2, c2⟩
      simp only at h1
      simp only [Option.some.injEq] at h
      subst h1
      subst h
      exact List.mem_cons_self _ _
    · rw [if_neg h1] at h
      exact List.mem_cons_of_mem _ (ih h)

theorem idxLookup_none_of_all_gt {m : List (Nat × Container)} {k : Nat}
    (h : ∀ kc ∈ m, k < kc.1) : idxLookup m k = none := by
  induction m with
  | nil => rfl
  | cons kc rest ih =>
    rw [idxLookup, if_neg (by have := h kc (by simp); omega)]
    exact ih (fun kc2 h2 => h kc2 (by simp [h2]))

theorem idxLookup_eq_some_of_mem {m : List (Nat × Container)}
    (hs : List.Sorted (· < ·) (m.map Prod.fst)) {k : Nat} {c : Container}
    (h : (k, c) ∈ m) : idxLookup m k = some c := by
  induction m with
  | nil => simp at h
  | cons kc rest ih =>
    rw [List.map_cons, List.sorted_cons] at hs
    obtain ⟨hhead, htail⟩ := hs
    rcases List.mem_cons.mp h with heq | h2
    · subst heq
      rw [idxLookup]
      simp
    · have hk : kc.1 < k := hhead k (List.mem_map.mpr ⟨(k, c), h2, rfl⟩)
      rw [idxLookup, if_neg (by omega)]
      exact ih htail h2

/-! ## RoaringBitmap to_array and contains lemmas -/

theorem RoaringBitmap.wf_lookup {r : RoaringBitmap} (hr : r.wf) {k : Nat}
    {c : Container} (h : idxLookup r.containers k = some c) : k < 65536 ∧ c.wf :=
  hr.2 (k, c) (idxLookup_mem h)

theorem RoaringBitmap.contains_def (r : RoaringBitmap) (n : Nat) :
    r.contains n = (match idxLookup r.containers (n / 65536) with
      | none => false
      | some c => c.contains (n % 65536)) := rfl

theorem key_value_eq {x n : Nat} :
    x = n ↔ x / 65536 = n / 65536 ∧ x % 65536 = n % 65536 := by omega

theorem mem_to_array {r : RoaringBitmap} (hr : r.wf) {x : Nat} :
    x ∈ r.to_array ↔
      ∃ c, idxLookup r.containers (x / 65536) = some c ∧ x % 65536 ∈ c.elems := by
  rw [RoaringBitmap.to_array, List.mem_flatMap]
  constructor
  · rintro ⟨kc, hkc, hx⟩
    obtain ⟨v, hv, rfl⟩ := List.mem_map.mp hx
    have hvb : v < 65536 := Container.elems_bound (hr.2 kc hkc).2 v hv
    have hdiv : (kc.1 * 65536 + v) / 65536 = kc.1 := by omega
    have hmod : (kc.1 * 65536 + v) % 65536 = v := by omega
    rw [hdiv, hmod]
    refine ⟨kc.2, ?_, hv⟩
    exact idxLookup_eq_some_of_mem hr.1 (by
      rcases kc with ⟨k2, c2⟩
      exact hkc)
  · rintro ⟨c, hc, hv⟩
    refine ⟨(x / 65536, c), idxLookup_mem hc, ?_⟩
    refine List.mem_map.mpr ⟨x % 65536, hv, ?_⟩
    omega

theorem contains_iff_mem_to_array {r : RoaringBitmap} (hr : r.wf) {x : Nat} :
    r.contains x = true ↔ x ∈ r.to_array := by
  rw [mem_to_array hr, RoaringBitmap.contains_def]
  cases h : idxLookup r.containers (x / 65536) with
  | none =>
    constructor
    · intro hf
      exact Bool.noConfusion hf
    · rintro ⟨c, hc, _⟩
      exact Option.noConfusion hc
  | some c =>
    have hwf := (RoaringBitmap.wf_lookup hr h).2
    show c.contains (x % 65536) = true ↔ _
    rw [Container.contains_iff hwf (by omega : x % 65536 < 65536)]
    constructor
    · intro hm
      exact ⟨c, rfl, hm⟩
    · rintro ⟨c2, hc2, hm⟩
      cases hc2
      exact hm

theorem flatMap_blocks_sorted (cs : List (Nat × Container))
    (hkeys : List.Sorted (· < ·) (cs.map Prod.fst))
    (hall : ∀ kc ∈ cs, kc.1 < 65536 ∧ kc.2.wf) :
    List.Sorted (· < ·)
      (cs.flatMap (fun kc => kc.2.elems.map (fun v => kc.1 * 65536 + v))) := by
  induction cs with
  | nil => simp
  | cons kc rest ih =>
    rw [List.flatMap_cons]
    rw [List.Sorted, List.pairwise_append]
    rw [List.map_cons, List.sorted_cons] at hkeys
    refine ⟨?_, ?_, ?_⟩
    · refine List.Pairwise.map _ ?_ (Container.elems_sorted (hall kc (by simp)).2)
      intro a b hab
      omega
    · exact ih hkeys.2 (fun kc2 h2 => hall kc2 (by simp [h2]))
    · intro a ha b hb
      obtain ⟨v, hv, rfl⟩ := List.mem_map.mp ha
      obtain ⟨kc2, hkc2, hb2⟩ := List.mem_flatMap.mp hb
      obtain ⟨v2, hv2, rfl⟩ := List.mem_map.mp hb2
      have h1 : v < 65536 := Container.elems_bound (hall kc (by simp)).2 v hv
      have h2 : kc.1 < kc2.1 := hkeys.1 kc2.1 (List.mem_map.mpr ⟨kc2, hkc2, rfl⟩)
      have := Nat.mul_le_mul_right 65536 (by omega : kc.1 + 1 ≤ kc2.1)
      omega

theorem to_array_sorted {r : RoaringBitmap} (hr : r.wf) :
    List.Sorted (· < ·) r.to_array :=
  flatMap_blocks_sorted r.containers hr.1 hr.2

/-! ## RoaringBitmap.add lemmas -/

theorem RoaringBitmap.add_none {r : RoaringBitmap} {n : Nat}
    (h : idxLookup r.containers (n / 65536) = none) :
    r.add n = (⟨idxInsert r.containers (n / 65536) (.Array ⟨[n % 65536]⟩),
      r.cardinality + 1⟩, true) := by
  simp only [RoaringBitmap.add, split_into_key_value]
  simp only [h]
  rfl

theorem RoaringBitmap.add_some {r : RoaringBitmap} {n : Nat} {c : Container}
    (h : idxLookup r.containers (n / 65536) = some c) :
    r.add n = (⟨idxInsert r.containers (n / 65536) (c.add (n % 65536)).1,
      if (c.add (n % 65536)).2 then r.cardinality + 1 else r.cardinality⟩,
      (c.add (n % 65536)).2) := by
  simp only [RoaringBitmap.add, split_into_key_value]
  simp only [h]

theorem RoaringBitmap.add_spec {r : RoaringBitmap} (hr : r.wf) {n : Nat}
    (hn : n < 2 ^ 32) :
    (r.add n).1.wf ∧
    (∀ x, (r.add n).1.contains x = true ↔ x = n ∨ r.contains x = true) ∧
    ((r.add n).2 = !r.contains n) ∧
    ((r.add n).1.cardinality =
      if r.contains n = true then r.cardinality else r.cardinality + 1) ∧
    (r.noEmpty → (r.add n).1.noEmpty) := by
  have hkey : n / 65536 < 65536 := by omega
  have hval : n % 65536 < 65536 := by omega
  cases h : idxLookup r.containers (n / 65536) with
  | none =>
    rw [RoaringBitmap.add_none h]
    have hcn : r.contains n = false := by
      rw [RoaringBitmap.contains_def, h]
    have hwfnew : (Container.Array ⟨[n % 65536]⟩).wf := by
      refine ⟨by simp, ?_⟩
      intro z hz
      rw [List.mem_singleton] at hz
      omega
    refine ⟨⟨idxInsert_keys_sorted hr.1 _ _, ?_⟩, ?_, by rw [hcn]; rfl,
      by rw [hcn]; rfl, ?_⟩
    · intro kc hkc
      rcases mem_idxInsert hkc with rfl | h2
      · exact ⟨hkey, hwfnew⟩
      · exact hr.2 kc h2
    · intro x
      rw [RoaringBitmap.contains_def, RoaringBitmap.contains_def]
      simp only [idxLookup_idxInsert]
      by_cases hk : n / 65536 = x / 65536
      · rw [if_pos hk, ← hk, h]
        show (ArrayContainer.contains ⟨[n % 65536]⟩ (x % 65536)) = true ↔ _
        rw [ArrayContainer.ac_contains_iff, List.mem_singleton]
        constructor
        · intro hv
          left
          omega
        · rintro (rfl | hf)
          · rfl
          · exact Bool.noConfusion hf
      · rw [if_neg hk]
        constructor
        · intro hc
          right
          exact hc
        · rintro (rfl | hc)
          · exact absurd rfl hk
          · exact hc
    · intro hne kc hkc
      rcases mem_idxInsert hkc with rfl | h2
      · simp only [Container.elems_Array]
        simp
      · exact hne kc h2
  | some c =>
    have hcwf := (RoaringBitmap.wf_lookup hr h).2
    obtain ⟨ha1, ha2, ha3⟩ := Container.c_add_spec hcwf hval
    have hcn : r.contains n = c.contains (n % 65536) := by
      rw [RoaringBitmap.contains_def, h]
    have hcmem : r.contains n = true ↔ n % 65536 ∈ c.elems := by
      rw [hcn]
      exact Container.contains_iff hcwf hval
    rw [RoaringBitmap.add_some h]
    refine ⟨⟨idxInsert_keys_sorted hr.1 _ _, ?_⟩, ?_, ?_, ?_, ?_⟩
    · intro kc hkc
      rcases mem_idxInsert hkc with rfl | h2
      · exact ⟨hkey, ha1⟩
      · exact hr.2 kc h2
    · intro x
      rw [RoaringBitmap.contains_def, RoaringBitmap.contains_def]
      simp only [idxLookup_idxInsert]
      by_cases hk : n / 65536 = x / 65536
      · rw [if_pos hk, ← hk, h]
        show (c.add (n % 65536)).1.contains (x % 65536) = true ↔ _
        rw [Container.contains_iff ha1 (by omega : x % 65536 < 65536), ha2,
          Container.contains_iff hcwf (by omega : x % 65536 < 65536)]
        constructor
        · rintro (hv | hv)
          · left; omega
          · right; exact hv
        · rintro (rfl | hv)
          · left; rfl
          · right; exact hv
      · rw [if_neg hk]
        constructor
        · intro hc2
          right
          exact hc2
        · rintro (rfl | hc2)
          · exact absurd rfl hk
          · exact hc2
    · cases hb : (c.add (n % 65536)).2 with
      | true =>
        have hnm := ha3.mp hb
        have hcf : r.contains n = false := by
          cases hc2 : r.contains n
          · rfl
          · exact absurd (hcmem.mp hc2) hnm
        rw [hcf]
        rfl
      | false =>
        have hmem : n % 65536 ∈ c.elems := by
          by_contra hcon
          rw [ha3.mpr hcon] at hb
          exact Bool.noConfusion hb
        rw [hcmem.mpr hmem]
        rfl
    · by_cases hmem : n % 65536 ∈ c.elems
      · rw [if_neg (fun hf => (ha3.mp hf) hmem), if_pos (hcmem.mpr hmem)]
      · rw [if_pos (ha3.mpr hmem), if_neg (fun hc2 => hmem (hcmem.mp hc2))]
    · intro hne kc hkc
      rcases mem_idxInsert hkc with rfl | h2
      · simp only
        intro hnil
        have hm2 := (ha2 (n % 65536)).mpr (Or.inl rfl)
        rw [hnil] at hm2
        exact List.not_mem_nil _ hm2
      · exact hne kc h2

theorem RoaringBitmap.new_wf : RoaringBitmap.new.wf := by
  constructor
  · simp [RoaringBitmap.new]
  · intro kc hkc
    simp [RoaringBitmap.new] at hkc

theorem RoaringBitmap.foldAdd_invariant (l : List Nat) (hl : ∀ v ∈ l, v < 2 ^ 32) :
    ∀ (r : RoaringBitmap) (S : Finset Nat), r.wf → r.noEmpty →
      (∀ x, r.contains x = true ↔ x ∈ S) → r.cardinality = S.card →
      (l.foldl (fun r x => (r.add x).1) r).wf ∧
      (l.foldl (fun r x => (r.add x).1) r).noEmpty ∧
      (∀ x, (l.foldl (fun r x => (r.add x).1) r).contains x = true ↔
        x ∈ S ∪ l.toFinset) ∧
      (l.foldl (fun r x => (r.add x).1) r).cardinality = (S ∪ l.toFinset).card := by
  induction l with
  | nil =>
    intro r S hwf hne hmem hcard
    refine ⟨hwf, hne, ?_, ?_⟩
    · intro x
      simpa using hmem x
    · simpa using hcard
  | cons a t ih =>
    intro r S hwf hne hmem hcard
    have ha : a < 2 ^ 32 := hl a (by simp)
    obtain ⟨h1, h2, h3, h4, h5⟩ := RoaringBitmap.add_spec hwf ha
    have hmem2 : ∀ x, (r.add a).1.contains x = true ↔ x ∈ insert a S := by
      intro x
      rw [h2 x, Finset.mem_insert, hmem x]
    have hcard2 : (r.add a).1.cardinality = (insert a S).card := by
      rw [h4]
      by_cases hc : r.contains a = true
      · rw [if_pos hc, Finset.insert_eq_self.mpr ((hmem a).mp hc), hcard]
      · rw [if_neg hc,
          Finset.card_insert_of_not_mem (fun hc2 => hc ((hmem a).mpr hc2)), hcard]
    obtain ⟨g1, g2, g3, g4⟩ := ih (fun v hv => hl v (by simp [hv]))
      (r.add a).1 (insert a S) h1 (h5 hne) hmem2 hcard2
    have hsets : insert a S ∪ t.toFinset = S ∪ (a :: t).toFinset := by
      ext y
      simp only [Finset.mem_union, Finset.mem_insert, List.toFinset_cons]
      tauto
    refine ⟨by simpa using g1, by simpa using g2, ?_, ?_⟩
    · intro x
      rw [List.foldl_cons, g3 x, hsets]
    · rw [List.foldl_cons, g4, hsets]

theorem RoaringBitmap.from_iter_spec (l : List Nat) (hl : ∀ v ∈ l, v < 2 ^ 32) :
    (RoaringBitmap.from_iter l).wf ∧ (RoaringBitmap.from_iter l).noEmpty ∧
    (∀ x, (RoaringBitmap.from_iter l).contains x = true ↔ x ∈ l) ∧
    (RoaringBitmap.from_iter l).cardinality = l.toFinset.card := by
  have hl2 : ∀ v ∈ List.insertionSort (· ≤ ·) l, v < 2 ^ 32 :=
    fun v hv => hl v (mem_mergeSort_le.mp hv)
  obtain ⟨h1, h2, h3, h4⟩ := RoaringBitmap.foldAdd_invariant _ hl2 RoaringBitmap.new
    ∅ RoaringBitmap.new_wf (by intro kc hkc; simp [RoaringBitmap.new] at hkc)
    (by
      intro x
      rw [RoaringBitmap.contains_def]
      constructor
      · intro hcon
        exact Bool.noConfusion hcon
      · intro hcon
        simp at hcon)
    rfl
  have hts : (List.insertionSort (· ≤ ·) l).toFinset = l.toFinset := by
    ext y
    rw [List.mem_toFinset, List.mem_toFinset, mem_mergeSort_le]
  refine ⟨h1, h2, ?_, ?_⟩
  · intro x
    rw [RoaringBitmap.from_iter, h3 x]
    rw [Finset.empty_union, List.mem_toFinset]
    exact mem_mergeSort_le
  · rw [RoaringBitmap.from_iter, h4]
    rw [Finset.empty_union, hts]

theorem RoaringBitmap.from_range_spec (s e : Nat) (he : e ≤ 2 ^ 32) :
    (RoaringBitmap.from_range s e).wf ∧ (RoaringBitmap.from_range s e).noEmpty ∧
    (∀ x, (RoaringBitmap.from_range s e).contains x = true ↔ s ≤ x ∧ x < e) ∧
    (RoaringBitmap.from_range s e).cardinality = e - s := by
  have hl : ∀ v ∈ List.range' s (e - s), v < 2 ^ 32 := by
    intro v hv
    rw [List.mem_range'] at hv
    obtain ⟨i, hi, rfl⟩ := hv
    omega
  obtain ⟨h1, h2, h3, h4⟩ := RoaringBitmap.foldAdd_invariant _ hl RoaringBitmap.new
    ∅ RoaringBitmap.new_wf (by intro kc hkc; simp [RoaringBitmap.new] at hkc)
    (by
      intro x
      rw [RoaringBitmap.contains_def]
      constructor
      · intro hcon
        exact Bool.noConfusion hcon
      · intro hcon
        simp at hcon)
    rfl
  refine ⟨h1, h2, ?_, ?_⟩
  · intro x
    rw [RoaringBitmap.from_range, h3 x]
    simp only [Finset.empty_union, List.mem_toFinset, List.mem_range']
    constructor
    · rintro ⟨i, hi, rfl⟩
      omega
    · intro ⟨hs, hxe⟩
      exact ⟨x - s, by omega, by omega⟩
  · rw [RoaringBitmap.from_range, h4, Finset.empty_union,
      List.toFinset_card_of_nodup (List.nodup_range' s (e - s) 1 (by omega))]
    exact List.length_range' s 1 (e - s)

/-! ## rank lemmas -/

theorem countP_mono_filter {v : Nat} {w : Nat} (hle : v ≤ 64) :
    ((List.range v).filter (fun j => w.testBit j)).length =
      (wordBits w).countP (fun j => decide (j < v)) := by
  rw [List.countP_eq_length_filter]
  congr 1
  refine sorted_ext ((List.pairwise_lt_range v).sublist (List.filter_sublist _))
    (((wordBits_sorted w).filter _)) ?_
  intro j
  rw [List.mem_filter, List.mem_filter, List.mem_range, mem_wordBits]
  constructor
  · rintro ⟨hj, hb⟩
    exact ⟨⟨by omega, hb⟩, by simpa using hj⟩
  · rintro ⟨⟨hj, hb⟩, hlt⟩
    exact ⟨by simpa using hlt, hb⟩

theorem rankWords_eq (ws : List Nat) (i v : Nat) :
    rankWords ws i v =
      (bitmapElemsAux ws i).countP (fun x => decide (x < v)) := by
  induction ws generalizing i with
  | nil => simp [rankWords, bitmapElemsAux]
  | cons w t ih =>
    rw [rankWords, bitmapElemsAux, List.countP_append]
    by_cases h : (i + 1) * 64 < v
    · rw [if_pos h, ih (i + 1)]
      congr 1
      rw [List.countP_map]
      have : ∀ j ∈ wordBits w, (decide (i * 64 + j < v)) = true := by
        intro j hj
        have := (mem_wordBits.mp hj).1
        simp only [decide_eq_true_eq]
        omega
      calc countOnes w = (wordBits w).length := rfl
        _ = (wordBits w).countP ((fun x => decide (x < v)) ∘ (fun j => i * 64 + j)) := by
            rw [List.countP_eq_length_filter, List.filter_eq_self.mpr (by
              intro j hj
              simpa using this j hj)]
    · rw [if_neg h]
      have htail : (bitmapElemsAux t (i + 1)).countP (fun x => decide (x < v)) = 0 := by
        rw [List.countP_eq_zero]
        intro x hx
        have := bitmapElemsAux_lb hx
        simp only [decide_eq_true_eq]
        omega
      rw [htail, Nat.add_zero, List.countP_map]
      by_cases hv : i * 64 ≤ v
      · rw [countP_mono_filter (by omega : v - i * 64 ≤ 64)]
        congr 1
        funext j
        simp only [Function.comp]
        congr 1
        simp only [eq_iff_iff, decide_eq_true_eq]
        omega
      · push_neg at hv
        have hzero : v - i * 64 = 0 := by omega
        rw [hzero]
        simp only [List.range_zero, List.filter_nil, List.length_nil]
        symm
        rw [List.countP_eq_zero]
        intro j hj
        have := (mem_wordBits.mp hj).1
        simp only [Function.comp, decide_eq_true_eq]
        omega

theorem Container.c_rank_eq {c : Container} (hc : c.wf) (lo : Nat) :
    c.rank lo = c.elems.countP (fun x => decide (x < lo)) := by
  cases c with
  | Array ac => rfl
  | Bitmap bc => exact rankWords_eq bc.bitmap 0 lo

theorem rankLoop_eq (cs : List (Nat × Container))
    (hkeys : List.Sorted (· < ·) (cs.map Prod.fst))
    (hall : ∀ kc ∈ cs, kc.1 < 65536 ∧ kc.2.wf) (tk lo : Nat) (hlo : lo < 65536)
    (hcond : (∃ c, idxLookup cs tk = some c) ∨ ∀ kc ∈ cs, kc.1 < tk) :
    rankLoop cs tk lo =
      (cs.flatMap (fun kc => kc.2.elems.map (fun v => kc.1 * 65536 + v))).countP
        (fun x => decide (x < tk * 65536 + lo)) := by
  induction cs with
  | nil => simp [rankLoop]
  | cons kc rest ih =>
    rw [List.map_cons, List.sorted_cons] at hkeys
    obtain ⟨hwfk, hwfc⟩ := hall kc (by simp)
    rw [rankLoop, List.flatMap_cons, List.countP_append]
    by_cases hk : kc.1 < tk
    · rw [if_pos hk]
      have hblock : (kc.2.elems.map (fun v => kc.1 * 65536 + v)).countP
          (fun x => decide (x < tk * 65536 + lo)) = kc.2.cardinality := by
        rw [List.countP_map, Container.card_elems hwfc]
        rw [List.countP_eq_length_filter, List.filter_eq_self.mpr ?_]
        intro v hv
        have hvb := Container.elems_bound hwfc v hv
        simp only [Function.comp, decide_eq_true_eq]
        have := Nat.mul_le_mul_right 65536 (by omega : kc.1 + 1 ≤ tk)
        omega
      rw [hblock, ih hkeys.2 (fun kc2 h2 => hall kc2 (by simp [h2])) ?_]
      rcases hcond with ⟨c, hc⟩ | hall2
      · rw [idxLookup, if_neg (by omega)] at hc
        exact Or.inl ⟨c, hc⟩
      · exact Or.inr (fun kc2 h2 => hall2 kc2 (by simp [h2]))
    · rw [if_neg hk]
      have hktk : kc.1 = tk := by
        rcases hcond with ⟨c, hc⟩ | hall2
        · by_contra hne
          rw [idxLookup, if_neg (by omega)] at hc
          rw [idxLookup_none_of_all_gt ?_] at hc
          · exact Option.noConfusion hc
          · intro kc2 h2
            have := hkeys.1 kc2.1 (List.mem_map.mpr ⟨kc2, h2, rfl⟩)
            omega
        · exact absurd (hall2 kc (by simp)) hk
      have htail : (rest.flatMap
          (fun kc => kc.2.elems.map (fun v => kc.1 * 65536 + v))).countP
          (fun x => decide (x < tk * 65536 + lo)) = 0 := by
        rw [List.countP_eq_zero]
        intro x hx
        obtain ⟨kc2, hkc2, hx2⟩ := List.mem_flatMap.mp hx
        obtain ⟨v, hv, rfl⟩ := List.mem_map.mp hx2
        have hgt : kc.1 < kc2.1 := hkeys.1 kc2.1 (List.mem_map.mpr ⟨kc2, hkc2, rfl⟩)
        simp only [decide_eq_true_eq]
        have := Nat.mul_le_mul_right 65536 (by omega : tk + 1 ≤ kc2.1)
        omega
      rw [htail, Nat.add_zero, Container.c_rank_eq hwfc, List.countP_map]
      congr 1
      funext v
      simp only [Function.comp, hktk, decide_eq_decide]
      omega

theorem RoaringBitmap.rank_eq {r : RoaringBitmap} (hr : r.wf) {v : Nat}
    (hcond : (∃ c, idxLookup r.containers (v / 65536) = some c) ∨
      ∀ kc ∈ r.containers, kc.1 < v / 65536) :
    r.rank v = r.to_array.countP (fun x => decide (x < v)) := by
  rw [RoaringBitmap.rank, split_into_key_value]
  have h := rankLoop_eq r.containers hr.1 hr.2 (v / 65536) (v % 65536)
    (by omega) hcond
  rw [h]
  rw [RoaringBitmap.to_array]
  congr 1
  funext x
  simp only [decide_eq_decide]
  omega

/-! ## Union / intersection characterization -/

def insFold (g : (Nat × Container) → Container) (L : List (Nat × Container))
    (m : List (Nat × Container)) : List (Nat × Container) :=
  L.foldl (fun acc kc => idxInsert acc kc.1 (g kc)) m

theorem foldl_body_containers (body : RoaringBitmap → (Nat × Container) → RoaringBitmap)
    (f : (Nat × Container) → Container)
    (hbody : ∀ acc kc, (body acc kc).containers = idxInsert acc.containers kc.1 (f kc))
    (L : List (Nat × Container)) :
    ∀ acc, (L.foldl body acc).containers = insFold f L acc.containers := by
  induction L with
  | nil => intro acc; rfl
  | cons kc rest ih =>
    intro acc
    rw [List.foldl_cons, ih (body acc kc), hbody acc kc]
    rfl

theorem union_containers (a b : RoaringBitmap) :
    (a.union b).containers =
      insFold (fun kc => match idxLookup a.containers kc.1 with
        | some ca => ca.union kc.2
        | none => kc.2) b.containers
        (insFold (fun kc => kc.2)
          (a.containers.filter (fun kc => (idxLookup b.containers kc.1).isNone)) []) := by
  rw [RoaringBitmap.union]
  rw [foldl_body_containers _ (fun kc => match idxLookup a.containers kc.1 with
      | some ca => ca.union kc.2
      | none => kc.2) ?_ b.containers]
  · congr 1
    have := foldl_body_containers
      (fun acc kc => ⟨idxInsert acc.containers kc.1 kc.2,
        acc.cardinality + kc.2.cardinality⟩)
      (fun kc => kc.2) (fun acc kc => rfl)
      (a.containers.filter (fun kc => (idxLookup b.containers kc.1).isNone))
      RoaringBitmap.new
    exact this
  · intro acc kc
    show _ = idxInsert acc.containers kc.1 (match idxLookup a.containers kc.1 with
      | some ca => ca.union kc.2
      | none => kc.2)
    cases h : idxLookup a.containers kc.1 with
    | some ca => rfl
    | none => rfl

theorem insFold_keys_sorted (g : (Nat × Container) → Container)
    (L : List (Nat × Container)) :
    ∀ m, List.Sorted (· < ·) (m.map Prod.fst) →
      List.Sorted (· < ·) ((insFold g L m).map Prod.fst) := by
  induction L with
  | nil => intro m hm; exact hm
  | cons kc rest ih =>
    intro m hm
    rw [insFold, List.foldl_cons]
    exact ih _ (idxInsert_keys_sorted hm _ _)

theorem find?_key (L : List (Nat × Container)) (k : Nat) :
    L.find? (fun kc => kc.1 == k) = (idxLookup L k).map (fun c => (k, c)) := by
  induction L with
  | nil => rfl
  | cons kc rest ih =>
    by_cases h : kc.1 = k
    · rw [List.find?_cons_of_pos _ (by simpa using h), idxLookup, if_pos h]
      rcases kc with ⟨k2, c2⟩
      simp only at h
      subst h
      rfl
    · rw [List.find?_cons_of_neg _ (by simpa using h), idxLookup, if_neg h, ih]

theorem idxLookup_insFold (g : (Nat × Container) → Container)
    (L : List (Nat × Container)) :
    ∀ m, (L.map Prod.fst).Nodup → ∀ k,
      idxLookup (insFold g L m) k =
        match L.find? (fun kc => kc.1 == k) with
        | some kc => some (g kc)
        | none => idxLookup m k := by
  induction L with
  | nil => intro m hnd k; rfl
  | cons kc rest ih =>
    intro m hnd k
    rw [List.map_cons, List.nodup_cons] at hnd
    rw [insFold, List.foldl_cons]
    have ihm := ih (idxInsert m kc.1 (g kc)) hnd.2 k
    rw [insFold] at ihm
    rw [ihm]
    by_cases h : kc.1 = k
    · rw [List.find?_cons_of_pos _ (by simpa using h)]
      have hnone : rest.find? (fun kc2 => kc2.1 == k) = none := by
        rw [List.find?_eq_none]
        intro kc2 hkc2
        simp only [beq_iff_eq]
        intro heq
        apply hnd.1
        rw [h, ← heq]
        exact List.mem_map.mpr ⟨kc2, hkc2, rfl⟩
      rw [hnone, idxLookup_idxInsert, if_pos h]
    · rw [List.find?_cons_of_neg _ (by simpa using h)]
      cases hf : rest.find? (fun kc2 => kc2.1 == k) with
      | some kc2 => rfl
      | none => rw [idxLookup_idxInsert, if_neg h]

theorem idxLookup_filter (p : (Nat × Container) → Bool)
    (L : List (Nat × Container))
    (hs : List.Sorted (· < ·) (L.map Prod.fst)) (k : Nat) :
    idxLookup (L.filter p) k =
      match idxLookup L k with
      | some c => if p (k, c) then some c else none
      | none => none := by
  induction L with
  | nil => rfl
  | cons kc rest ih =>
    rw [List.map_cons, List.sorted_cons] at hs
    by_cases h : kc.1 = k
    · rcases kc with ⟨k2, c2⟩
      simp only at h
      subst h
      have hrest : idxLookup rest k2 = none := by
        apply idxLookup_none_of_all_gt
        intro kc2 h2
        exact hs.1 kc2.1 (List.mem_map.mpr ⟨kc2, h2, rfl⟩)
      by_cases hp : p (k2, c2)
      · rw [List.filter_cons_of_pos hp, idxLookup, if_pos rfl, idxLookup, if_pos rfl]
        show some c2 = if p (k2, c2) = true then some c2 else none
        rw [if_pos hp]
      · rw [List.filter_cons_of_neg hp, idxLookup, if_pos rfl, ih hs.2, hrest]
        show (none : Option Container) = if p (k2, c2) = true then some c2 else none
        rw [if_neg hp]
    · have hstep : idxLookup (kc :: rest) k = idxLookup rest k := by
        rw [idxLookup, if_neg h]
      rw [hstep]
      by_cases hp : p kc
      · rw [List.filter_cons_of_pos hp, idxLookup, if_neg h, ih hs.2]
      · rw [List.filter_cons_of_neg hp, ih hs.2]

theorem keys_nodup {r : RoaringBitmap} (hr : r.wf) :
    (r.containers.map Prod.fst).Nodup := hr.1.nodup

theorem union_lookup {a b : RoaringBitmap} (ha : a.wf) (hb : b.wf) (k : Nat) :
    idxLookup (a.union b).containers k =
      match idxLookup a.containers k, idxLookup b.containers k with
      | some ca, some cb => some (ca.union cb)
      | some ca, none => some ca
      | none, some cb => some cb
      | none, none => none := by
  rw [union_containers, idxLookup_insFold _ _ _ (keys_nodup hb) k, find?_key]
  cases hbk : idxLookup b.containers k with
  | some cb =>
    rw [Option.map_some']
    show (some (match idxLookup a.containers k with
        | some ca => ca.union cb
        | none => cb) : Option Container) = _
    cases hak : idxLookup a.containers k with
    | some ca => rfl
    | none => rfl
  | none =>
    rw [Option.map_none']
    have hfnd : ((a.containers.filter
        (fun kc => (idxLookup b.containers kc.1).isNone)).map Prod.fst).Nodup := by
      refine List.Nodup.sublist ?_ (keys_nodup ha)
      exact List.Sublist.map _ (List.filter_sublist _)
    rw [idxLookup_insFold _ _ _ hfnd k, find?_key,
      idxLookup_filter _ _ ha.1 k]
    cases hak : idxLookup a.containers k with
    | some ca =>
      simp [hbk]
    | none => rfl

/-! ## union membership and is_subset soundness -/

theorem union_contains {a b : RoaringBitmap} (ha : a.wf) (hb : b.wf) (x : Nat) :
    (a.union b).contains x = (a.contains x || b.contains x) := by
  simp only [RoaringBitmap.contains_def]
  rw [union_lookup ha hb (x / 65536)]
  cases hak : idxLookup a.containers (x / 65536) with
  | some ca =>
    cases hbk : idxLookup b.containers (x / 65536) with
    | some cb =>
      show (ca.union cb).contains (x % 65536) =
        (ca.contains (x % 65536) || cb.contains (x % 65536))
      have hwa := (RoaringBitmap.wf_lookup ha hak).2
      have hwb := (RoaringBitmap.wf_lookup hb hbk).2
      obtain ⟨hu1, hu2⟩ := Container.union_spec hwa hwb
      have hlt : x % 65536 < 65536 := Nat.mod_lt _ (by omega)
      have h1 := Container.contains_iff hu1 hlt
      have h2 := Container.contains_iff hwa hlt
      have h3 := Container.contains_iff hwb hlt
      have h4 := hu2 (x % 65536)
      by_cases hm : x % 65536 ∈ (ca.union cb).elems
      · rw [h1.mpr hm]
        rcases h4.mp hm with hma | hmb
        · rw [h2.mpr hma, Bool.true_or]
        · rw [h3.mpr hmb, Bool.or_true]
      · have g1 : (ca.union cb).contains (x % 65536) = false :=
          Bool.eq_false_iff.mpr (fun hI => hm (h1.mp hI))
        have g2 : ca.contains (x % 65536) = false :=
          Bool.eq_false_iff.mpr (fun hI => hm (h4.mpr (Or.inl (h2.mp hI))))
        have g3 : cb.contains (x % 65536) = false :=
          Bool.eq_false_iff.mpr (fun hI => hm (h4.mpr (Or.inr (h3.mp hI))))
        rw [g1, g2, g3, Bool.or_false]
    | none =>
      show ca.contains (x % 65536) = (ca.contains (x % 65536) || false)
      rw [Bool.or_false]
  | none =>
    cases hbk : idxLookup b.containers (x / 65536) with
    | some cb =>
      show cb.contains (x % 65536) = (false || cb.contains (x % 65536))
      rw [Bool.false_or]
    | none => rfl

theorem is_subset_contains {a b : RoaringBitmap} (ha : a.wf) (hb : b.wf)
    (hs : a.is_subset b = true) {x : Nat} (hx : a.contains x = true) :
    b.contains x = true := by
  rw [RoaringBitmap.contains_def] at hx
  cases hak : idxLookup a.containers (x / 65536) with
  | none => rw [hak] at hx; exact Bool.noConfusion hx
  | some ca =>
    rw [hak] at hx
    have hx2 : ca.contains (x % 65536) = true := hx
    have hmemA := idxLookup_mem hak
    rw [RoaringBitmap.is_subset] at hs
    have hall := List.all_eq_true.mp hs _ hmemA
    have hall2 : (match idxLookup b.containers (x / 65536) with
        | none => false
        | some cb => ca.is_subset cb) = true := hall
    cases hbk : idxLookup b.containers (x / 65536) with
    | none => rw [hbk] at hall2; exact Bool.noConfusion hall2
    | some cb =>
      rw [hbk] at hall2
      have hwa := (RoaringBitmap.wf_lookup ha hak).2
      have hwb := (RoaringBitmap.wf_lookup hb hbk).2
      have hlt : x % 65536 < 65536 := Nat.mod_lt _ (by omega)
      have hmem : x % 65536 ∈ ca.elems := (Container.contains_iff hwa hlt).mp hx2
      have hmem2 := Container.is_subset_sound hwa hwb hall2 _ hmem
      rw [RoaringBitmap.contains_def, hbk]
      exact (Container.contains_iff hwb hlt).mpr hmem2

/-! ## rank on ranges -/

theorem lookup_some_of_contains {r : RoaringBitmap} {v : Nat}
    (h : r.contains v = true) :
    (idxLookup r.containers (v / 65536)).isSome = true := by
  rw [RoaringBitmap.contains_def] at h
  cases hl : idxLookup r.containers (v / 65536) with
  | some c => rfl
  | none => rw [hl] at h; exact Bool.noConfusion h

theorem countP_lt_of_mem_iff {l : List Nat} {N v : Nat} (hnd : l.Nodup)
    (hmem : ∀ x, x ∈ l ↔ x < N) (hv : v ≤ N) :
    l.countP (fun x => decide (x < v)) = v := by
  rw [List.countP_eq_length_filter]
  have hnd2 : (l.filter (fun x => decide (x < v))).Nodup := hnd.filter _
  have hmem2 : ∀ x, x ∈ l.filter (fun x => decide (x < v)) ↔ x < v := by
    intro x
    rw [List.mem_filter, hmem x]
    simp only [decide_eq_true_eq]
    omega
  have hts : (l.filter (fun x => decide (x < v))).toFinset = Finset.range v := by
    ext x
    rw [List.mem_toFinset, hmem2, Finset.mem_range]
  calc (l.filter (fun x => decide (x < v))).length
      = (l.filter (fun x => decide (x < v))).toFinset.card :=
        (List.toFinset_card_of_nodup hnd2).symm
    _ = v := by rw [hts, Finset.card_range]

theorem from_range_rank {v : Nat} (hv : v < 131072) :
    (RoaringBitmap.from_range 0 131072).rank v = v := by
  obtain ⟨hwf, hne, hmem, hcard⟩ :=
    RoaringBitmap.from_range_spec 0 131072 (by norm_num)
  have hc : (RoaringBitmap.from_range 0 131072).contains v = true :=
    (hmem v).mpr ⟨Nat.zero_le v, hv⟩
  rw [RoaringBitmap.rank_eq hwf
    (Or.inl (Option.isSome_iff_exists.mp (lookup_some_of_contains hc)))]
  have hmemN : ∀ x, x ∈ (RoaringBitmap.from_range 0 131072).to_array ↔ x < 131072 := by
    intro x
    rw [← contains_iff_mem_to_array hwf, hmem x]
    omega
  exact countP_lt_of_mem_iff (to_array_sorted hwf).nodup hmemN (by omega)

/-! ## word-vector lengths -/

theorem foldAdd_bitmap_length (l : List Nat) :
    ∀ c : BitmapContainer,
      (l.foldl (fun b v => (b.add v).1) c).bitmap.length = c.bitmap.length := by
  induction l with
  | nil => intro c; rfl
  | cons a t ih =>
    intro c
    rw [List.foldl_cons, ih]
    simp [BitmapContainer.add]

theorem remove_bitmap_length (c : BitmapContainer) (v : Nat) :
    (c.remove v).1.bitmap.length = c.bitmap.length := by
  simp only [BitmapContainer.remove]
  by_cases h : c.is_one_at_position (find_position_in_bitmap v).1
      (find_position_in_bitmap v).2
  · rw [if_pos h]
    simp
  · rw [if_neg h]

theorem from_iter_bitmap_length (l : List Nat) :
    (BitmapContainer.from_iter l).bitmap.length = BITMAP_SIZE := by
  rw [BitmapContainer.from_iter, foldAdd_bitmap_length]
  simp [BitmapContainer.new]

/-! ## The claims -/

/-- C1: the claim says `union`, `intersection`, `difference` and
`symmetric_difference` always return the set-theoretic result over `to_array`,
with `symmetric_difference` cloning the container of the side that has a key
present in only one input.  Counterexample: for a key present only in `self`,
`RoaringBitmap::symmetric_difference` indexes `other.containers[&key]`, a
`BTreeMap` index with a missing key, which panics (modelled as `none`) instead
of returning `{0}`. -/
theorem C1_symmetric_difference_panics_on_key_only_in_self :
    (RoaringBitmap.from_iter [0]).symmetric_difference RoaringBitmap.new = none := by
  decide

/-- C2: the claim says every public operation is total on every reachable
state.  Counterexample: `add 5` then `remove 5` leaves an empty container in
the index (reachable state); `intersection` with a bitmap sharing that key
calls `has_overlap`, which unwraps `minimum()`/`maximum()` of the empty
container — a panic (modelled as `none`). -/
theorem C2_intersection_panics_after_remove :
    ((RoaringBitmap.from_iter [5]).remove 5).1.intersection
      (RoaringBitmap.from_iter [3]) = none := by
  decide

/-- C3: the claim says the cached total cardinality always equals
`length (to_array)`.  Counterexample: `symmetric_difference` never updates the
result's cardinality field, so `{0} △ {1}` has `to_array = [0, 1]` but
`cardinality() = 0`. -/
theorem C3_symmetric_difference_leaves_cardinality_stale :
    ((RoaringBitmap.from_iter [0]).symmetric_difference
      (RoaringBitmap.from_iter [1])).map
        (fun r => ((r.cardinality, r.to_array.length), r.to_array)) =
      some ((0, 2), [0, 1]) := by
  decide

/-- C4: the claim says the cached cardinality of a `BitmapContainer` equals
the true popcount at all observable times, maintained by `remove`.
Counterexample: `BitmapContainer::remove` clears the bit of a present value
but never decrements the cached `cardinality` field, so after removing the
only element the container reports cardinality 1 with an empty bit array. -/
theorem C4_bitmap_remove_leaves_cardinality_stale :
    ((BitmapContainer.from_iter [0]).remove 0).1.cardinality = 1 ∧
    ((BitmapContainer.from_iter [0]).remove 0).1.elems = [] := by
  decide

/-- C5: the claim says a container left empty by a mutation is dropped from
the index.  Counterexample: after `add 5` then `remove 5` the key 0 is still
in the index although `to_array` is empty — `RoaringBitmap::remove` reinserts
the emptied container and no operation ever drops it. -/
theorem C5_empty_container_not_dropped :
    ((RoaringBitmap.from_iter [5]).remove 5).1.containers.map Prod.fst = [0] ∧
    ((RoaringBitmap.from_iter [5]).remove 5).1.to_array = [] := by
  decide

/-- C6 (amended): `rank(A, v)` counts the elements strictly below `v`, not
`≤ v` as claimed: on a well-formed bitmap whose container index either has an
entry for the high half of `v` or has all its keys below that high half,
`rank` returns `|{x ∈ A : x < v}|` (the binary-search insertion point, without
the `+ 1` on a hit). -/
theorem C6_rank_counts_strictly_smaller {r : RoaringBitmap} (hr : r.wf) (v : Nat)
    (hcond : (idxLookup r.containers (v / 65536)).isSome = true ∨
      ∀ kc ∈ r.containers, kc.1 < v / 65536) :
    r.rank v = r.to_array.countP (fun x => decide (x < v)) := by
  refine RoaringBitmap.rank_eq hr ?_
  rcases hcond with h | h
  · exact Or.inl (Option.isSome_iff_exists.mp h)
  · exact Or.inr h

theorem C6_rank_counts_strictly_smaller_witness :
    (RoaringBitmap.from_iter [5]).rank 7 =
      (RoaringBitmap.from_iter [5]).to_array.countP (fun x => decide (x < 7)) :=
  C6_rank_counts_strictly_smaller (by decide) 7 (Or.inl (by decide))

/-- C6 (counterexample to the claimed inclusive count): on `{5}`,
`rank 5 = 0` while `|{x ∈ A : x ≤ 5}| = 1`. -/
theorem C6_rank_not_inclusive :
    ¬ ((RoaringBitmap.from_iter [5]).rank 5 =
      ((RoaringBitmap.from_iter [5]).to_array.filter
        (fun x => decide (x ≤ 5))).length) := by
  decide

/-- C7: on the bitmap built by `from_range 0 131072`, `rank 8 = 8`,
`rank 1 = 1`, `rank 5 = 5` and `rank 70000 = 70000`. -/
theorem C7_rank_literals_on_range :
    (RoaringBitmap.from_range 0 131072).rank 8 = 8 ∧
    (RoaringBitmap.from_range 0 131072).rank 1 = 1 ∧
    (RoaringBitmap.from_range 0 131072).rank 5 = 5 ∧
    (RoaringBitmap.from_range 0 131072).rank 70000 = 70000 :=
  ⟨from_range_rank (by omega), from_range_rank (by omega),
    from_range_rank (by omega), from_range_rank (by omega)⟩

/-- C8 (amended): only the soundness direction of the claimed equivalence
holds.  On well-formed inputs, `is_subset A B = true` implies that `A ∪ B`
agrees with `B` on `contains` at every point and that every member of `A` is a
member of `B`; the claimed full equivalence `A ⊆ B ⇔ A ∪ B = B ⇔ A ∩ B = A`
fails (see the counterexample), as does the claimed Bitmap-in-Array test. -/
theorem C8_is_subset_sound {a b : RoaringBitmap} (ha : a.wf) (hb : b.wf)
    (hs : a.is_subset b = true) (x : Nat) :
    (a.union b).contains x = b.contains x ∧
    (a.contains x = true → b.contains x = true) := by
  have h2 : a.contains x = true → b.contains x = true :=
    fun hx => is_subset_contains ha hb hs hx
  refine ⟨?_, h2⟩
  rw [union_contains ha hb x]
  cases hax : a.contains x with
  | false => rw [Bool.false_or]
  | true => rw [h2 hax, Bool.true_or]

theorem C8_is_subset_sound_witness :
    ((RoaringBitmap.from_iter [3]).union (RoaringBitmap.from_iter [3, 4])).contains 4 =
      (RoaringBitmap.from_iter [3, 4]).contains 4 ∧
    ((RoaringBitmap.from_iter [3]).contains 4 = true →
      (RoaringBitmap.from_iter [3, 4]).contains 4 = true) :=
  C8_is_subset_sound (by decide) (by decide) (by decide) 4

/-- C8 (counterexample to the claimed equivalence): after `add 5` then
`remove 5` the bitmap is extensionally empty, so `A ∪ ∅` equals `∅` on
`to_array`, yet `is_subset` returns `false` because the leftover empty
container's key is missing from `∅`; and `BitmapContainer::is_subset` against
an `Array` container returns `false` even for an actual subset. -/
theorem C8_equivalence_fails :
    ¬ ((((RoaringBitmap.from_iter [5]).remove 5).1.is_subset RoaringBitmap.new = true) ↔
      ((((RoaringBitmap.from_iter [5]).remove 5).1.union RoaringBitmap.new).to_array =
        RoaringBitmap.new.to_array)) ∧
    (BitmapContainer.from_iter [1]).is_subset (Container.Array ⟨[1]⟩) = false := by
  decide

/-- C9: every `BitmapContainer` built by the code keeps a word vector of
exactly `BITMAP_SIZE = 1024` words: `new` allocates 1024 words; `add` and
`remove` preserve the length; `from_iter`, `upgrade` and the element-fold
used by `union_with_array_container` preserve/produce 1024 words; and the
word vectors built by the bitmap-bitmap `union`, `intersect`, `difference`
and `symmetric_difference` have exactly 1024 words, so every word-indexed
loop and pairwise word combination stays in bounds. -/
theorem C9_bitmap_word_vectors_have_1024_words :
    BitmapContainer.new.bitmap.length = BITMAP_SIZE ∧
    (∀ (c : BitmapContainer) (v : Nat),
      (c.add v).1.bitmap.length = c.bitmap.length ∧
      (c.remove v).1.bitmap.length = c.bitmap.length) ∧
    (∀ (l : List Nat) (c : BitmapContainer),
      (l.foldl (fun b v => (b.add v).1) c).bitmap.length = c.bitmap.length) ∧
    (∀ l : List Nat, (BitmapContainer.from_iter l).bitmap.length = BITMAP_SIZE) ∧
    (∀ ac : ArrayContainer, ac.upgrade.bitmap.length = BITMAP_SIZE) ∧
    (∀ c ob : BitmapContainer,
      c.union (.Bitmap ob) = .Bitmap
        ⟨(List.range BITMAP_SIZE).map
            (fun i => c.bitmap.getD i 0 ||| ob.bitmap.getD i 0),
          (((List.range BITMAP_SIZE).map
            (fun i => c.bitmap.getD i 0 ||| ob.bitmap.getD i 0)).map countOnes).sum⟩ ∧
      ((List.range BITMAP_SIZE).map
        (fun i => c.bitmap.getD i 0 ||| ob.bitmap.getD i 0)).length = BITMAP_SIZE) ∧
    (∀ c ob : BitmapContainer, c.bitmap.length = BITMAP_SIZE →
      ob.bitmap.length = BITMAP_SIZE →
      (List.zipWith (fun a b => a &&& b) c.bitmap ob.bitmap).length = BITMAP_SIZE) ∧
    (∀ c ob : BitmapContainer,
      ((List.range BITMAP_SIZE).map
        (fun i => c.bitmap.getD i 0 &&& (U64MAX ^^^ ob.bitmap.getD i 0))).length
          = BITMAP_SIZE ∧
      ((List.range BITMAP_SIZE).map
        (fun i => c.bitmap.getD i 0 ^^^ ob.bitmap.getD i 0)).length = BITMAP_SIZE) := by
  refine ⟨by simp [BitmapContainer.new], ?_, ?_, ?_, ?_, ?_, ?_, ?_⟩
  · intro c v
    exact ⟨by simp [BitmapContainer.add], remove_bitmap_length c v⟩
  · exact fun l c => foldAdd_bitmap_length l c
  · exact fun l => from_iter_bitmap_length l
  · exact fun ac => from_iter_bitmap_length ac.array
  · intro c ob
    exact ⟨rfl, by simp⟩
  · intro c ob h1 h2
    rw [List.length_zipWith, h1, h2, Nat.min_self]
  · intro c ob
    exact ⟨by simp, by simp⟩

theorem C9_bitmap_word_vectors_have_1024_words_witness :
    (List.zipWith (fun a b => a &&& b) BitmapContainer.new.bitmap
      BitmapContainer.new.bitmap).length = BITMAP_SIZE :=
  C9_bitmap_word_vectors_have_1024_words.2.2.2.2.2.2.1 BitmapContainer.new
    BitmapContainer.new (by simp [BitmapContainer.new]) (by simp [BitmapContainer.new])

/-- C10: for any finite input list of u32 values, `from_iter` builds a bitmap
containing exactly the distinct input values, and its cached cardinality is
the number of distinct values. -/
theorem C10_from_iter_collects_distinct_values (l : List Nat)
    (hl : ∀ v ∈ l, v < 2 ^ 32) :
    (∀ x, (RoaringBitmap.from_iter l).contains x = true ↔ x ∈ l) ∧
    (RoaringBitmap.from_iter l).cardinality = l.toFinset.card :=
  ⟨(RoaringBitmap.from_iter_spec l hl).2.2.1,
    (RoaringBitmap.from_iter_spec l hl).2.2.2⟩

theorem C10_from_iter_collects_distinct_values_witness :
    ((RoaringBitmap.from_iter [5, 3, 5]).contains 5 = true ↔ 5 ∈ [5, 3, 5]) ∧
    (RoaringBitmap.from_iter [5, 3, 5]).cardinality = [5, 3, 5].toFinset.card :=
  ⟨(C10_from_iter_collects_distinct_values [5, 3, 5] (by decide)).1 5,
    (C10_from_iter_collects_distinct_values [5, 3, 5] (by decide)).2⟩
